import Mathlib

/-!
# moul: the incremental photo pipeline of `internal/resize.go`

A shallow embedding of `GetPhotos`, `addWatermark` and `Resize` together with
the library calls they rest on (`path/filepath`, `image/draw`, `viper`), and
the properties of the pipeline stated over that embedding.

Go strings are modelled by `String`, Go `int` by `Int`.
-/

namespace Moul

/-! ## `strings` and `path/filepath` (Unix flavour) -/

/-- `strings.ToLower`, on the ASCII letters.  The pipeline only compares the
result with `.jpeg`, `.jpg` and `.png`, whose letters have no other upper case
form. -/
def ToLower (s : String) : String :=
  String.mk (s.data.map Char.toLower)

/-- Loop of `filepath.Ext`: walks from the last byte towards the first, `acc`
holding what has been passed; stops at a separator. -/
def extScan : List Char → List Char → List Char
  | [], _ => []
  | c :: rest, acc =>
    if c = '/' then []
    else if c = '.' then '.' :: acc
    else extScan rest (c :: acc)

/-- `filepath.Ext`: the suffix starting at the last dot of the last element. -/
def Ext (path : String) : String :=
  String.mk (extScan path.data.reverse [])

/-- `filepath.Base`: the last element of the path, trailing slashes removed. -/
def Base (path : String) : String :=
  if path = "" then "."
  else
    let stripped := path.data.reverse.dropWhile (fun c => c = '/')
    let last := stripped.takeWhile (fun c => c ≠ '/')
    if last = [] then "/" else String.mk last.reverse

/-- `strings.TrimSuffix`. -/
def TrimSuffix (s suffix : String) : String :=
  if suffix.data.isSuffixOf s.data then
    String.mk (s.data.take (s.data.length - suffix.data.length))
  else s

/-- Splits a path at every slash. -/
def splitSlash : List Char → List (List Char)
  | [] => [[]]
  | c :: cs =>
    match splitSlash cs with
    | [] => [[]]
    | h :: t => if c = '/' then [] :: h :: t else (c :: h) :: t

/-- One path element of `filepath.Clean`; `stack` holds the elements kept so
far, the last one first. -/
def cleanStep (rooted : Bool) (stack : List String) (c : String) : List String :=
  if c = "" ∨ c = "." then stack
  else if c = ".." then
    match stack with
    | [] => if rooted then [] else [".."]
    | top :: rest =>
      if top = ".." then (if rooted then stack else ".." :: stack) else rest
  else c :: stack

/-- `filepath.Clean`. -/
def Clean (path : String) : String :=
  if path = "" then "."
  else
    let rooted := path.data.head? = some '/'
    let kept := ((splitSlash path.data).map String.mk).foldl (cleanStep rooted) []
    let body := "/".intercalate kept.reverse
    if rooted then "/" ++ body
    else if body = "" then "." else body

/-- `filepath.Join`: the elements from the first non-empty one on, joined by
slashes and cleaned. -/
def Join (elem : List String) : String :=
  match elem.dropWhile (fun e => e = "") with
  | [] => ""
  | es => Clean ("/".intercalate es)

/-- `strconv.Itoa`. -/
def Itoa (n : Int) : String := toString n

/-! ## The directory walk of `GetPhotos` -/

mutual
/-- What `os.Lstat` and `readDirNames` find at a path. -/
inductive FsEntry where
  /-- `Lstat` fails: nothing there, or no permission. -/
  | noent : FsEntry
  /-- Anything `IsDir` is false of. -/
  | file : FsEntry
  /-- A directory; `readable = false` when its names cannot be read. -/
  | dir (readable : Bool) (children : FsList) : FsEntry
/-- The entries of a directory, in the lexical order `Walk` visits them. -/
inductive FsList where
  | nil : FsList
  | cons (name : String) (entry : FsEntry) (rest : FsList) : FsList
end

/-- The `os.FileInfo` handed to a walk callback, as far as it is used. -/
structure FileInfo where
  isDir : Bool
deriving DecidableEq, Repr

/-- One invocation of the walk callback: `info = none` is a nil `FileInfo`,
`err` says whether the error argument is non-nil. -/
structure Visit where
  path : String
  info : Option FileInfo
  err : Bool
deriving DecidableEq, Repr

mutual
/-- The callback invocations of `filepath.Walk` below `path`, for a callback
that always returns nil (those of `GetPhotos` and `GetDirs` do): a failed
`Lstat` calls it with a nil info and the error, a file calls it once, a
directory calls it with the error of reading its names and then descends. -/
def walkEntry (path : String) : FsEntry → List Visit
  | .noent => [⟨path, none, true⟩]
  | .file => [⟨path, some ⟨false⟩, false⟩]
  | .dir readable children =>
    ⟨path, some ⟨true⟩, !readable⟩ ::
      (if readable then walkList path children else [])
/-- The loop of `walk` over the names of a directory. -/
def walkList (path : String) : FsList → List Visit
  | .nil => []
  | .cons name entry rest => walkEntry (Join [path, name]) entry ++ walkList path rest
end

/-- Whether the lowercased extension is one `GetPhotos` accepts (line 153). -/
def isPhotoExt (path : String) : Bool :=
  ToLower (Ext path) = ".jpeg" || ToLower (Ext path) = ".jpg" || ToLower (Ext path) = ".png"

/-- The walk callback of `GetPhotos` (lines 149-157), `photos` being the
captured slice.  `none` is the runtime panic of calling `IsDir` on a nil
`FileInfo`; the error argument is never looked at. -/
def photosCallback (photos : List String) (v : Visit) : Option (List String) :=
  match v.info with
  | none => none
  | some info =>
    if info.isDir then some photos
    else if isPhotoExt v.path then some (photos ++ [v.path])
    else some photos

/-- `GetPhotos` over the entry found at `path`.  `Walk` returns the callback's
error, which is always nil, so the logging branch (line 159) is dead and the
result is the collected slice; `none` is the panic. -/
def GetPhotos (root : FsEntry) (path : String) : Option (List String) :=
  (walkEntry path root).foldlM photosCallback []

/-! ## `image` and `image/draw` -/

/-- `image.Point`. -/
structure Point where
  X : Int
  Y : Int
deriving DecidableEq, Repr

/-- `image.Rectangle`: the points with `Min.X ≤ x < Max.X`, `Min.Y ≤ y < Max.Y`. -/
structure Rectangle where
  Min : Point
  Max : Point
deriving DecidableEq, Repr

/-- `image.ZP`. -/
def ZP : Point := ⟨0, 0⟩

/-- `image.ZR`. -/
def ZR : Rectangle := ⟨ZP, ZP⟩

/-- `Point.Sub`. -/
def Point.Sub (p q : Point) : Point := ⟨p.X - q.X, p.Y - q.Y⟩

/-- `Point.In`. -/
def Point.In (p : Point) (r : Rectangle) : Bool :=
  decide (r.Min.X ≤ p.X) && decide (p.X < r.Max.X) &&
    decide (r.Min.Y ≤ p.Y) && decide (p.Y < r.Max.Y)

/-- `Rectangle.Empty`. -/
def Rectangle.Empty (r : Rectangle) : Bool :=
  decide (r.Min.X ≥ r.Max.X) || decide (r.Min.Y ≥ r.Max.Y)

/-- `Rectangle.Size`. -/
def Rectangle.Size (r : Rectangle) : Point :=
  ⟨r.Max.X - r.Min.X, r.Max.Y - r.Min.Y⟩

/-- `Rectangle.Add`. -/
def Rectangle.Add (r : Rectangle) (p : Point) : Rectangle :=
  ⟨⟨r.Min.X + p.X, r.Min.Y + p.Y⟩, ⟨r.Max.X + p.X, r.Max.Y + p.Y⟩⟩

/-- `Rectangle.Intersect`. -/
def Rectangle.Intersect (r s : Rectangle) : Rectangle :=
  let minX := if r.Min.X < s.Min.X then s.Min.X else r.Min.X
  let minY := if r.Min.Y < s.Min.Y then s.Min.Y else r.Min.Y
  let maxX := if r.Max.X > s.Max.X then s.Max.X else r.Max.X
  let maxY := if r.Max.Y > s.Max.Y then s.Max.Y else r.Max.Y
  let t : Rectangle := ⟨⟨minX, minY⟩, ⟨maxX, maxY⟩⟩
  if t.Empty then ZR else t

/-- An `image.Image` with colours in `C`: its bounds and the colour at each
point. -/
structure Image (C : Type) where
  Bounds : Rectangle
  At : Int → Int → C

/-- `draw.clip` without a mask: the rectangle clipped to the destination and
to the source placed so that `sp` lies on `r.Min`, and `sp` moved along. -/
def clip {C : Type} (dst : Image C) (r : Rectangle) (src : Image C) (sp : Point) :
    Rectangle × Point :=
  let orig := r.Min
  let r1 := r.Intersect dst.Bounds
  let r2 := r1.Intersect (src.Bounds.Add (orig.Sub sp))
  let dx := r2.Min.X - orig.X
  let dy := r2.Min.Y - orig.Y
  (r2, ⟨sp.X + dx, sp.Y + dy⟩)

/-- `draw.Draw(dst, r, src, sp, draw.Over)`: every point of the clipped
rectangle receives the source colour composed over the old one; `over` is the
Porter-Duff operator on colours. -/
def Draw {C : Type} (over : C → C → C) (dst : Image C) (r : Rectangle) (src : Image C)
    (sp : Point) : Image C :=
  let rc := clip dst r src sp
  if rc.1.Empty then dst
  else
    { Bounds := dst.Bounds
      At := fun x y =>
        if Point.In ⟨x, y⟩ rc.1 then
          over (src.At (rc.2.X + (x - rc.1.Min.X)) (rc.2.Y + (y - rc.1.Min.Y))) (dst.At x y)
        else dst.At x y }

/-- The rectangle `r` of `addWatermark` (lines 122-123): `Min` is `pos`, `Max`
is the size of the derivative. -/
def watermarkRect {C : Type} (img watermarkImage : Image C) : Rectangle :=
  let pos : Point := ⟨0, img.Bounds.Max.Y - watermarkImage.Bounds.Max.Y⟩
  ⟨pos, img.Bounds.Size⟩

/-- `addWatermark` (lines 121-126).  The coordinates of an image are far from
the range of a 64 bit `int`, so the subtraction is that of `Int`. -/
def addWatermark {C : Type} (over : C → C → C) (img watermarkImage : Image C) : Image C :=
  Draw over img (watermarkRect img watermarkImage) watermarkImage ZP

/-! ## Persisted documents (`viper`) -/

/-- A configuration document as far as the pipeline reads and writes it, by
flattened key as `viper` addresses it: string leaves under dotted keys
(`<slug>.sha`, `<slug>.id`) and top-level arrays of strings (the path list of
a category).  A value set on an instance is read before the value loaded from
the file and written in its place, so one map stands for both. -/
structure Doc where
  strings : String → Option String
  lists : String → Option (List String)

/-- The document of a file that is missing or does not parse:
`ReadInConfig` fails, its error is dropped and nothing is loaded. -/
def Doc.empty : Doc := ⟨fun _ => none, fun _ => none⟩

/-- `GetString`: the empty string for an absent key. -/
def Doc.GetString (d : Doc) (key : String) : String := (d.strings key).getD ""

/-- `GetStringSlice`: the empty slice for an absent key. -/
def Doc.GetStringSlice (d : Doc) (key : String) : List String := (d.lists key).getD []

/-- `Set` with a string value. -/
def Doc.SetString (d : Doc) (key value : String) : Doc :=
  { d with strings := fun k => if k = key then some value else d.strings k }

/-- `Set` with a slice of strings. -/
def Doc.SetSlice (d : Doc) (key : String) (value : List String) : Doc :=
  { d with lists := fun k => if k = key then some value else d.lists k }

/-- The directory `.moul`: the document of `.moul/<name>.toml` for each name,
`none` while the file does not exist. -/
abbrev Store := String → Option Doc

/-- The file name (without `.toml`) a `viper` instance reads after
`SetConfigName(name)`: `viper.New()` starts with the name `config`, and
`SetConfigName("")` leaves it alone. -/
def configName (name : String) : String := if name = "" then "config" else name

/-- A `viper` instance with config path `.moul`, type `toml` and the given
name, after `ReadInConfig`: the document of `.moul/<configName name>.toml`. -/
def Store.ReadInConfig (s : Store) (name : String) : Doc :=
  (s (configName name)).getD Doc.empty

/-- `WriteConfigAs(".moul/<name>.toml")`: the whole document replaces the
file.  `Resize` drops the error of the call; the write is taken to succeed. -/
def Store.WriteConfigAs (s : Store) (name : String) (d : Doc) : Store :=
  fun n => if n = name then some d else s n

/-! ## The pipeline -/

/-- What a run of `Resize` finds outside itself. -/
structure Env (C : Type) where
  /-- `slug.Make` (gosimple/slug).  Its results are made of lower case letters,
  digits, `-` and `_`, which `viper` leaves as they are in a key. -/
  slugMake : String → String
  /-- The value `UniqueID()`, which is not among the sources, returns in this
  run. -/
  UniqueID : String
  /-- `GetSHA1`, which is not among the sources: the content hash of the file
  at a path. -/
  GetSHA1 : String → String
  /-- What the walk finds at a path. -/
  lstat : String → FsEntry
  /-- `imaging.Open`; `none` when it returns an error. -/
  imagingOpen : String → Option (Image C)
  /-- `imaging.Resize(img, size, 0, imaging.Lanczos)`. -/
  imagingResize : Image C → Int → Image C
  /-- The colour composition of `draw.Over`. -/
  over : C → C → C
  /-- Whether `os.MkdirAll(dir, 0755)` succeeds. -/
  MkdirAll : String → Bool
  /-- Whether `imaging.Save(img, out)` succeeds. -/
  imagingSave : Image C → String → Bool

/-- An effect of the run outside the two documents, in the order they
happen. -/
inductive Event (C : Type) where
  /-- `addWatermark` is called on the derivative of `photo` at index `idx` of
  the sizes. -/
  | addWatermark (photo : String) (idx : Nat) : Event C
  /-- `saveImage` has written `img` to the file `out`. -/
  | saveImage (out : String) (img : Image C) : Event C
  /-- `makeSQIP(id, inPath, author, photoType)` is called. -/
  | makeSQIP (id inPath author photoType : String) : Event C

/-- The variables of the loop of `Resize`: the category document, the path
list and the effects so far. -/
structure RunState (C : Type) where
  config : Doc
  ap : List String
  trace : List (Event C)

/-- How a run ends: normally, in `log.Fatal`, or in a runtime panic. -/
inductive Status where
  | completed
  | fatal
  | panicked
deriving DecidableEq, Repr

/-- A finished run: its effects, the documents on disk and how it ended. -/
structure Result (C : Type) where
  trace : List (Event C)
  store : Store
  status : Status

/-- `getFilePath` (lines 37-39). -/
def getFilePath (uid pfx : String) (size : Int) : String :=
  Join [".moul", "photos", uid, pfx, Itoa size]

/-- `GetFileName` (lines 42-44). -/
def GetFileName {C : Type} (env : Env C) (fn author : String) : String :=
  env.slugMake (TrimSuffix fn (Ext fn)) ++ "-by-" ++ env.slugMake author

/-- `saveImage` (lines 98-112): the file written, or `none` for `log.Fatal`. -/
def saveImage {C : Type} (env : Env C) (id inPath author photoType : String) (size : Int)
    (img : Image C) : Option (Event C) :=
  let fn := Base inPath
  let name := GetFileName env fn author
  let dir := getFilePath id photoType size
  let out := Join [dir, name ++ ".jpg"]
  if env.MkdirAll dir then
    if env.imagingSave img out then some (.saveImage out img) else none
  else none

/-- `resizeImage` (lines 116-119). -/
def resizeImage {C : Type} (env : Env C) (img : Image C) (size : Int) : Image C :=
  env.imagingResize img size

/-- Modelled from the spec: `makeSQIP`, which is not among the sources.  The
placeholder generator is best effort and the pipeline does not look at what
it did, so a call is only recorded. -/
def makeSQIP {C : Type} (id inPath author photoType : String) : Event C :=
  .makeSQIP id inPath author photoType

/-- The loop over `sizes` (lines 216-234), from index `idx` on.  An error is
the state in which `log.Fatal` ended the process. -/
def sizesLoop {C : Type} (env : Env C) (watermarkImage : Image C) (watermark : Bool)
    (unique photo author cat name : String) :
    Nat → List Int → RunState C → Except (RunState C) (RunState C)
  | _, [], st => .ok st
  | idx, size :: rest, st =>
    match env.imagingOpen photo with
    | none => .error st
    | some src =>
      let resized := resizeImage env src size
      let marked := watermark && idx == 0
      let newImage := if marked then addWatermark env.over resized watermarkImage else resized
      let st1 : RunState C :=
        if marked then { st with trace := st.trace ++ [.addWatermark photo idx] } else st
      match saveImage env unique photo author cat size newImage with
      | none => .error st1
      | some written =>
        sizesLoop env watermarkImage watermark unique photo author cat name (idx + 1) rest
          { st1 with
            trace := st1.trace ++ [written]
            ap := st1.ap ++ [Join [".", ".moul", "photos", unique, cat, Itoa size, name ++ ".jpg"]] }

/-- The body of the loop over `photos` (lines 207-245); `cat` is
`slug.Make(outPrefix)`. -/
def photoStep {C : Type} (env : Env C) (watermarkImage : Image C) (watermark : Bool)
    (unique author cat : String) (sizes : List Int) (st : RunState C) (photo : String) :
    Except (RunState C) (RunState C) :=
  let fn := env.slugMake (Base photo)
  let pt := Base photo
  let name := GetFileName env pt author
  if st.config.GetString (fn ++ ".sha") = env.GetSHA1 photo then .ok st
  else
    match sizesLoop env watermarkImage watermark unique photo author cat name 0 sizes st with
    | .error dead => .error dead
    | .ok st1 =>
      .ok
        { config :=
            (st1.config.SetString (fn ++ ".sha") (env.GetSHA1 photo)).SetString (fn ++ ".id") unique
          ap := st1.ap ++ [Join [".", ".moul", "photos", unique, cat, "sqip", name ++ ".svg"]]
          trace := st1.trace ++ [makeSQIP unique photo author cat] }

/-- The loop over `photos` (line 206). -/
def photosLoop {C : Type} (env : Env C) (watermarkImage : Image C) (watermark : Bool)
    (unique author cat : String) (sizes : List Int) :
    List String → RunState C → Except (RunState C) (RunState C)
  | [], st => .ok st
  | photo :: rest, st =>
    match photoStep env watermarkImage watermark unique author cat sizes st photo with
    | .error dead => .error dead
    | .ok st1 => photosLoop env watermarkImage watermark unique author cat sizes rest st1

/-- `Resize` (lines 183-251) started on the documents `store`.  A run that
panics or dies in `log.Fatal` keeps the files written so far and persists no
document. -/
def Resize {C : Type} (env : Env C) (store : Store) (inPath author outPrefix : String)
    (sizes : List Int) (watermark : Bool) : Result C :=
  let unique := env.UniqueID
  match GetPhotos (env.lstat inPath) inPath with
  | none => ⟨[], store, .panicked⟩
  | some photos =>
    let cat := env.slugMake outPrefix
    let config := store.ReadInConfig cat
    let allPhotos := store.ReadInConfig "photos"
    let ap := allPhotos.GetStringSlice cat
    match env.imagingOpen "watermark.png" with
    | none => ⟨[], store, .fatal⟩
    | some watermarkImage =>
      match photosLoop env watermarkImage watermark unique author cat sizes photos
          ⟨config, ap, []⟩ with
      | .error dead => ⟨dead.trace, store, .fatal⟩
      | .ok st =>
        let allPhotos1 := allPhotos.SetSlice cat st.ap
        ⟨st.trace, (store.WriteConfigAs cat st.config).WriteConfigAs "photos" allPhotos1,
          .completed⟩

/-! ## Expected effects, used to state the properties -/

/-- What one successful round of the loop over `sizes` does besides the path
list, for the entry `size` at index `idx` of a photo opened as `src`: a call
of `addWatermark` when the derivative is marked, then the file written. -/
def roundEvents {C : Type} (env : Env C) (watermarkImage : Image C) (watermark : Bool)
    (unique photo author cat : String) (src : Image C) (idx : Nat) (size : Int) :
    List (Event C) :=
  let out := Join [getFilePath unique cat size, GetFileName env (Base photo) author ++ ".jpg"]
  if watermark = true ∧ idx = 0 then
    [.addWatermark photo idx,
      .saveImage out (addWatermark env.over (resizeImage env src size) watermarkImage)]
  else [.saveImage out (resizeImage env src size)]

/-- The effects of processing one photo: the rounds of its sizes in order and
then the placeholder call. -/
def photoEvents {C : Type} (env : Env C) (watermarkImage : Image C) (watermark : Bool)
    (unique photo author cat : String) (src : Image C) (sizes : List Int) : List (Event C) :=
  (sizes.enumFrom 0).flatMap
      (fun r => roundEvents env watermarkImage watermark unique photo author cat src r.1 r.2) ++
    [.makeSQIP unique photo author cat]

/-- The paths appended to the list of the category by the loop over `sizes`. -/
def sizeEntries (unique cat name : String) (sizes : List Int) : List String :=
  sizes.map (fun size => Join [".", ".moul", "photos", unique, cat, Itoa size, name ++ ".jpg"])

/-- The key under which the hash of a photo is kept in the category document. -/
def shaKey {C : Type} (env : Env C) (photo : String) : String :=
  env.slugMake (Base photo) ++ ".sha"

/-- The key under which the run id of a photo is kept. -/
def idKey {C : Type} (env : Env C) (photo : String) : String :=
  env.slugMake (Base photo) ++ ".id"

/-- The path appended for the placeholder of a photo (lines 235-241). -/
def sqipEntry (unique cat name : String) : String :=
  Join [".", ".moul", "photos", unique, cat, "sqip", name ++ ".svg"]

/-- What one round of the loop over `photos` does to the category document:
nothing when the stored hash is the hash of the photo, hash and run id of the
photo set otherwise. -/
def configStep {C : Type} (env : Env C) (unique : String) (cfg : Doc) (photo : String) : Doc :=
  if cfg.GetString (shaKey env photo) = env.GetSHA1 photo then cfg
  else (cfg.SetString (shaKey env photo) (env.GetSHA1 photo)).SetString (idKey env photo) unique

/-! ## Concrete surroundings for examples -/

/-- Substitutions of `slug.Make` for English: `&` and `@` are spelled out. -/
def slugSubstitute : List Char → List Char
  | [] => []
  | c :: rest =>
    if c = '&' then 'a' :: 'n' :: 'd' :: slugSubstitute rest
    else if c = '@' then 'a' :: 't' :: slugSubstitute rest
    else c :: slugSubstitute rest

/-- Runs of dashes become one dash. -/
def slugCollapse : List Char → List Char
  | [] => []
  | c :: rest =>
    if c = '-' ∧ rest.head? = some '-' then slugCollapse rest else c :: slugCollapse rest

/-- `slug.Make` of gosimple/slug on ASCII text: substitute, lowercase, turn
every character other than a letter, a digit, `-` and `_` into a dash, collapse
the dashes and trim `-` and `_` from both ends. -/
def slugAscii (s : String) : String :=
  let lowered := (slugSubstitute s.data).map Char.toLower
  let dashed := lowered.map (fun c => if c.isAlphanum ∨ c = '-' ∨ c = '_' then c else '-')
  let collapsed := slugCollapse dashed
  let edge : Char → Bool := fun c => c = '-' || c = '_'
  String.mk ((collapsed.dropWhile edge).reverse.dropWhile edge).reverse

/-- An image of one colour with bounds `(0,0)-(w,h)`. -/
def flatImage (w h : Int) (c : Nat) : Image Nat := ⟨⟨ZP, ⟨w, h⟩⟩, fun _ _ => c⟩

/-- Surroundings in which every file opens as a 4 by 4 image and every write
succeeds; the tree is found at `in`. -/
def demoEnv (unique : String) (tree : FsEntry) (sha : String → String) : Env Nat where
  slugMake := slugAscii
  UniqueID := unique
  GetSHA1 := sha
  lstat := fun path => if path = "in" then tree else .noent
  imagingOpen := fun _ => some (flatImage 4 4 1)
  imagingResize := fun img size => ⟨⟨ZP, ⟨size, size⟩⟩, img.At⟩
  over := fun top _ => top
  MkdirAll := fun _ => true
  imagingSave := fun _ _ => true

/-- A directory with the three files of the extension filtering example. -/
def mixedDir : FsEntry :=
  .dir true (.cons "notes.txt" .file (.cons "photo.gif" .file (.cons "photo.jpg" .file .nil)))

/-- Two sub-directories that each hold a `photo.jpg`. -/
def twinDir : FsEntry :=
  .dir true
    (.cons "a" (.dir true (.cons "photo.jpg" .file .nil))
      (.cons "b" (.dir true (.cons "photo.jpg" .file .nil)) .nil))

/-- The two photos of `twinDir` differ in content. -/
def twinSha (path : String) : String := if path = "in/a/photo.jpg" then "h1" else "h2"

/-- A directory with the single file `photo.jpg`. -/
def singleDir : FsEntry := .dir true (.cons "photo.jpg" .file .nil)

/-- No document has been written yet. -/
def emptyStore : Store := fun _ => none

/-- First run over `twinDir`, nothing stored before. -/
def twinFirst : Result Nat :=
  Resize (demoEnv "run1" twinDir twinSha) emptyStore "in" "jane" "blog" [640] true

/-- Second run over the unchanged `twinDir`, on the documents of the first. -/
def twinSecond : Result Nat :=
  Resize (demoEnv "run2" twinDir twinSha) twinFirst.store "in" "jane" "blog" [640] true

/-- The directory `twinDir` with a third photo `c.jpg` next to `a` and `b`. -/
def tripleDir : FsEntry :=
  .dir true
    (.cons "a" (.dir true (.cons "photo.jpg" .file .nil))
      (.cons "b" (.dir true (.cons "photo.jpg" .file .nil))
        (.cons "c.jpg" .file .nil)))

/-- Hashes of the photos of `tripleDir`, `c` being the hash of `c.jpg`. -/
def tripleSha (c : String) (path : String) : String :=
  if path = "in/a/photo.jpg" then "h1" else if path = "in/b/photo.jpg" then "h2" else c

/-- First run over `tripleDir`. -/
def tripleFirst : Result Nat :=
  Resize (demoEnv "run1" tripleDir (tripleSha "h3")) emptyStore "in" "jane" "blog" [640] false

/-- Second run over `tripleDir` after `c.jpg` alone has changed. -/
def tripleSecond : Result Nat :=
  Resize (demoEnv "run2" tripleDir (tripleSha "h4")) tripleFirst.store "in" "jane" "blog"
    [640] false

/-- Documents in which `photo.jpg` of category `blog` is recorded with hash
`h1` and the category has no paths yet. -/
def seenStore : Store := fun name =>
  if name = "blog" then
    some ⟨fun key => if key = "photo-jpg.sha" then some "h1" else none, fun _ => none⟩
  else none

/-- A run over `singleDir` whose photo has the recorded hash. -/
def seenRun : Result Nat :=
  Resize (demoEnv "run2" singleDir (fun _ => "h1")) seenStore "in" "jane" "blog"
    [2560, 1280, 640] true

/-- A directory with two photos of different names. -/
def pairDir : FsEntry := .dir true (.cons "a.jpg" .file (.cons "b.png" .file .nil))

/-- Hashes of the photos of `pairDir`, `a` being the hash of `a.jpg`. -/
def pairSha (a : String) (path : String) : String := if path = "in/a.jpg" then a else "hb"

/-- A run over `singleDir` for the category written `Blog`. -/
def capitalRun : Result Nat :=
  Resize (demoEnv "run1" singleDir (fun _ => "h1")) emptyStore "in" "jane" "Blog" [640] false

/-- A run over `singleDir` for the category `blog`. -/
def blogRun : Result Nat :=
  Resize (demoEnv "run1" singleDir (fun _ => "h1")) emptyStore "in" "jane" "blog" [640] false

/-! ## Path elements and further examples -/

/-- The elements of a path: the pieces between its slashes. -/
def elements (path : String) : List String := (splitSlash path.data).map String.mk

/-- The last step of `filepath.Clean`: the text of a stack of kept elements. -/
def render (rooted : Bool) (kept : List String) : String :=
  if rooted then "/" ++ "/".intercalate kept.reverse
  else if "/".intercalate kept.reverse = "" then "." else "/".intercalate kept.reverse

/-- The stacks `filepath.Clean` builds: slash-free elements other than the
empty one and `.`, with `..` only at the bottom of a relative path. -/
def Kept (rooted : Bool) : List String → Prop
  | [] => True
  | x :: below =>
    x ≠ "" ∧ x ≠ "." ∧ '/' ∉ x.data ∧
      (x = ".." → rooted = false ∧ (below = [] ∨ below.head? = some "..")) ∧
      Kept rooted below

/-- A path element that `filepath.Clean` keeps as it is: not empty, not `.`,
not `..` and without a slash. -/
def Plain (x : String) : Prop := x ≠ "" ∧ x ≠ "." ∧ x ≠ ".." ∧ '/' ∉ x.data

/-- The photos the loop over `photos` processes, in scan order: those whose
stored hash differs from their hash when their turn comes. -/
def processed {C : Type} (env : Env C) (unique : String) : List String → Doc → List String
  | [], _ => []
  | photo :: rest, cfg =>
    if cfg.GetString (shaKey env photo) = env.GetSHA1 photo then processed env unique rest cfg
    else photo :: processed env unique rest (configStep env unique cfg photo)

/-- The paths appended to the list of the category for one processed photo:
one per size, then the placeholder. -/
def photoEntries {C : Type} (env : Env C) (unique author cat : String) (sizes : List Int)
    (photo : String) : List String :=
  sizeEntries unique cat (GetFileName env (Base photo) author) sizes ++
    [sqipEntry unique cat (GetFileName env (Base photo) author)]

/-- A short text for an effect: its kind and the file or photo it concerns. -/
def Event.label {C : Type} : Event C → String
  | .addWatermark photo _ => "mark " ++ photo
  | .saveImage out _ => "save " ++ out
  | .makeSQIP _ inPath _ _ => "sqip " ++ inPath

/-- The surroundings `demoEnv` with the files in `broken` failing to open. -/
def brokenEnv (unique : String) (tree : FsEntry) (sha : String → String)
    (broken : List String) : Env Nat :=
  { demoEnv unique tree sha with
    imagingOpen := fun path => if path ∈ broken then none else some (flatImage 4 4 1) }

/-- A run over `pairDir` in which `b.png` cannot be decoded. -/
def brokenRun : Result Nat :=
  Resize (brokenEnv "run1" pairDir (pairSha "ha") ["in/b.png"]) emptyStore "in" "jane" "blog"
    [640] false

/-- A run over `singleDir` without a `watermark.png`, the flag off and the
photo already recorded. -/
def unmarkedRun : Result Nat :=
  Resize (brokenEnv "run2" singleDir (fun _ => "h1") ["watermark.png"]) seenStore "in" "jane"
    "blog" [2560, 1280, 640] false

/-- First run over `pairDir` for the category `!!!`, whose slug is empty. -/
def blankFirst : Result Nat :=
  Resize (demoEnv "run1" pairDir (pairSha "ha")) emptyStore "in" "jane" "!!!" [640] false

/-- Second run over the unchanged `pairDir` for the category `!!!`. -/
def blankSecond : Result Nat :=
  Resize (demoEnv "run2" pairDir (pairSha "ha")) blankFirst.store "in" "jane" "!!!" [640] false

/-- Second run for the category `!!!` after `a.jpg` alone has changed. -/
def blankChanged : Result Nat :=
  Resize (demoEnv "run2" pairDir (pairSha "ha2")) blankFirst.store "in" "jane" "!!!" [640] false

/-- First run over `pairDir` for the category `photos`. -/
def albumFirst : Result Nat :=
  Resize (demoEnv "run1" pairDir (pairSha "ha")) emptyStore "in" "jane" "photos" [640] false

/-- Second run over the unchanged `pairDir` for the category `photos`. -/
def albumSecond : Result Nat :=
  Resize (demoEnv "run2" pairDir (pairSha "ha")) albumFirst.store "in" "jane" "photos" [640]
    false

/-- Second run for the category `photos` after `a.jpg` alone has changed. -/
def albumChanged : Result Nat :=
  Resize (demoEnv "run2" pairDir (pairSha "ha2")) albumFirst.store "in" "jane" "photos" [640]
    false

/-- Files whose extensions are written in upper or mixed case, a file with a
further extension behind the photo one, and a directory named like a photo. -/
def shoutDir : FsEntry :=
  .dir true
    (.cons "A.JPG" .file
      (.cons "b.Png" .file
        (.cons "c.jPeG" .file
          (.cons "d.JPG.txt" .file
            (.cons "e.jpg" (.dir true .nil) .nil)))))

/-- A directory whose names can be read while `Lstat` fails on its entry
`gone.jpg` (the directory may not be searched, or the file went away after the
names were read); `photo.jpg` is there. -/
def lockedDir : FsEntry :=
  .dir true (.cons "gone.jpg" .noent (.cons "photo.jpg" .file .nil))

/-- What processing a photo writes into the category document (lines
244-245): its hash under `<slug>.sha` and the run id under `<slug>.id`. -/
def recordPhoto {C : Type} (env : Env C) (unique : String) (cfg : Doc) (photo : String) : Doc :=
  (cfg.SetString (shaKey env photo) (env.GetSHA1 photo)).SetString (idKey env photo) unique

/-! ## `GetPhotos` -/

/-- The walk of `GetPhotos` in closed form: when every visit carries a file
info, the result is what was collected before followed by the visited
non-directories with an accepted extension, in visiting order. -/
theorem foldlM_photosCallback (vs : List Visit) (acc : List String)
    (h : ∀ v ∈ vs, v.info ≠ none) :
    vs.foldlM photosCallback acc =
      some (acc ++ (vs.filter (fun v => v.info == some ⟨false⟩ && isPhotoExt v.path)).map
        Visit.path) := by
  induction vs generalizing acc with
  | nil => simp
  | cons v vs ih =>
    have hv := h v (List.mem_cons_self _ _)
    have ih' := fun a => ih a (fun u hu => h u (List.mem_cons_of_mem _ hu))
    rcases v with ⟨p, info, e⟩
    cases info with
    | none => exact absurd rfl hv
    | some i =>
      rcases i with ⟨d⟩
      cases d <;> by_cases hp : isPhotoExt p = true <;>
        simp [photosCallback, ih', hp, List.filter_cons]

/-- The walk of `GetPhotos` panics as soon as one visit carries no file
info. -/
theorem foldlM_photosCallback_none (vs : List Visit) (acc : List String)
    (h : ∃ v ∈ vs, v.info = none) : vs.foldlM photosCallback acc = none := by
  induction vs generalizing acc with
  | nil =>
    obtain ⟨v, hv, _⟩ := h
    exact absurd hv (List.not_mem_nil _)
  | cons u vs ih =>
    rcases u with ⟨p, info, e⟩
    cases info with
    | none => simp [photosCallback]
    | some i =>
      have hrest : ∃ v ∈ vs, v.info = none := by
        obtain ⟨v, hv, hn⟩ := h
        rcases List.mem_cons.1 hv with rfl | hv
        · simp at hn
        · exact ⟨v, hv, hn⟩
      rcases i with ⟨d⟩
      cases d <;> by_cases hp : isPhotoExt p = true <;>
        simp [photosCallback, ih _ hrest, hp]

/-- C7: for every tree, `GetPhotos` either panics, which it does exactly when
`Lstat` fails on a visited entry, or returns the visited non-directories
whose lowercased extension is `.jpg`, `.jpeg` or `.png`, in visiting order;
whenever it returns, a path is in the result exactly when the walk visits it
as such a file.  The directory with `photo.jpg`, `photo.gif` and `notes.txt`
yields the one path of `photo.jpg`; extensions in upper or mixed case are
accepted, a photo extension in the middle of a name and a directory named like
a photo are not; and `lockedDir`, which holds `photo.jpg` next to an entry on
which `Lstat` fails, yields nothing at all. -/
theorem getPhotos_extension_filter (root : FsEntry) (path : String) :
    GetPhotos root path =
      (if ∀ v ∈ walkEntry path root, v.info ≠ none then
        some (((walkEntry path root).filter
          (fun v => v.info == some ⟨false⟩ && isPhotoExt v.path)).map Visit.path)
      else none) ∧
    (∀ photos, GetPhotos root path = some photos →
      ∀ p, p ∈ photos ↔
        ∃ v ∈ walkEntry path root, v.path = p ∧ v.info = some ⟨false⟩ ∧
          (ToLower (Ext p) = ".jpg" ∨ ToLower (Ext p) = ".jpeg" ∨ ToLower (Ext p) = ".png")) ∧
    GetPhotos mixedDir "in" = some ["in/photo.jpg"] ∧
    GetPhotos shoutDir "in" = some ["in/A.JPG", "in/b.Png", "in/c.jPeG"] ∧
    (ToLower (Ext "in/A.JPG") = ".jpg" ∧ Ext "in/A.JPG" ≠ ".jpg") ∧
    GetPhotos lockedDir "in" = none := by
  have hmain : GetPhotos root path =
      (if ∀ v ∈ walkEntry path root, v.info ≠ none then
        some (((walkEntry path root).filter
          (fun v => v.info == some ⟨false⟩ && isPhotoExt v.path)).map Visit.path)
      else none) := by
    by_cases hstat : ∀ v ∈ walkEntry path root, v.info ≠ none
    · rw [if_pos hstat]
      simpa using foldlM_photosCallback _ [] hstat
    · rw [if_neg hstat]
      apply foldlM_photosCallback_none
      simpa using hstat
  refine ⟨hmain, ?_, by decide, by decide, by decide, by decide⟩
  intro photos hphotos p
  rw [hmain] at hphotos
  split at hphotos
  · cases hphotos
    simp only [List.mem_map, List.mem_filter, Bool.and_eq_true, beq_iff_eq,
      isPhotoExt, Bool.or_eq_true, decide_eq_true_eq]
    constructor
    · rintro ⟨v, ⟨hv, hi, hx⟩, rfl⟩
      exact ⟨v, hv, rfl, hi, by tauto⟩
    · rintro ⟨v, hv, rfl, hi, hx⟩
      exact ⟨v, ⟨hv, hi, by tauto⟩, rfl⟩
  · exact absurd hphotos (by simp)

/-- C7 at `shoutDir`: the result holds exactly the visited files with a photo
extension, whatever the case it is written in. -/
theorem getPhotos_extension_filter_witness :
    GetPhotos shoutDir "in" = some ["in/A.JPG", "in/b.Png", "in/c.jPeG"] ∧
    ∀ p, p ∈ ["in/A.JPG", "in/b.Png", "in/c.jPeG"] ↔
      ∃ v ∈ walkEntry "in" shoutDir, v.path = p ∧ v.info = some ⟨false⟩ ∧
        (ToLower (Ext p) = ".jpg" ∨ ToLower (Ext p) = ".jpeg" ∨ ToLower (Ext p) = ".png") :=
  ⟨by decide, (getPhotos_extension_filter shoutDir "in").2.1 _ (by decide)⟩

/-- C8: for a root on which `Lstat` fails the walk calls the callback once,
with a nil file info and the error, and `GetPhotos` ends in the panic of
dereferencing that info: no slice is returned and nothing is logged.  Only a
root directory whose names cannot be read, which still has a file info, gives
the empty slice. -/
theorem getPhotos_missing_root_panics (path : String) (children : FsList) :
    walkEntry path .noent = [⟨path, none, true⟩] ∧
    photosCallback [] ⟨path, none, true⟩ = none ∧
    GetPhotos .noent path = none ∧
    GetPhotos (.dir false children) path = some [] := by
  simp [GetPhotos, walkEntry, photosCallback]

/-! ## `draw.Draw` and `addWatermark` -/


/-- A point lies in the intersection of two rectangles exactly when it lies in both. -/
theorem Point.In_Intersect (p : Point) (r s : Rectangle) :
    p.In (r.Intersect s) = (p.In r && p.In s) := by
  rw [Bool.eq_iff_iff]
  simp only [Rectangle.Intersect, Rectangle.Empty, Point.In, ZR, ZP, Bool.or_eq_true,
    Bool.and_eq_true, decide_eq_true_eq]
  split_ifs <;> constructor <;> intro hp <;> simp only [] at * <;> omega

/-- `draw.Draw` keeps the bounds of the destination. -/
theorem Draw_Bounds {C : Type} (over : C → C → C) (dst : Image C) (r : Rectangle)
    (src : Image C) (sp : Point) : (Draw over dst r src sp).Bounds = dst.Bounds := by
  simp only [Draw]
  split_ifs <;> rfl

/-- `draw.Draw` pixel by pixel: a point of `r` that lies in the destination and under the
source placed with `sp` on `r.Min` receives the source pixel composed over it; every other
point keeps its colour. -/
theorem Draw_At {C : Type} (over : C → C → C) (dst : Image C) (r : Rectangle)
    (src : Image C) (sp : Point) (x y : Int) :
    (Draw over dst r src sp).At x y =
      if Point.In ⟨x, y⟩ r ∧ Point.In ⟨x, y⟩ dst.Bounds ∧
          Point.In ⟨x, y⟩ (src.Bounds.Add (r.Min.Sub sp)) then
        over (src.At (sp.X + (x - r.Min.X)) (sp.Y + (y - r.Min.Y))) (dst.At x y)
      else dst.At x y := by
  have hin : Point.In ⟨x, y⟩ (clip dst r src sp).1 =
      (Point.In ⟨x, y⟩ r && Point.In ⟨x, y⟩ dst.Bounds &&
        Point.In ⟨x, y⟩ (src.Bounds.Add (r.Min.Sub sp))) := by
    simp only [clip, Point.In_Intersect]
  have hx : (clip dst r src sp).2.X + (x - (clip dst r src sp).1.Min.X) =
      sp.X + (x - r.Min.X) := by
    simp only [clip]; omega
  have hy : (clip dst r src sp).2.Y + (y - (clip dst r src sp).1.Min.Y) =
      sp.Y + (y - r.Min.Y) := by
    simp only [clip]; omega
  have hiff : Point.In ⟨x, y⟩ (clip dst r src sp).1 = true ↔
      (Point.In ⟨x, y⟩ r ∧ Point.In ⟨x, y⟩ dst.Bounds ∧
          Point.In ⟨x, y⟩ (src.Bounds.Add (r.Min.Sub sp))) := by
    rw [hin]; simp only [Bool.and_eq_true, and_assoc]
  simp only [Draw]
  by_cases he : (clip dst r src sp).1.Empty = true
  · have hno : ¬ (Point.In ⟨x, y⟩ r ∧ Point.In ⟨x, y⟩ dst.Bounds ∧
          Point.In ⟨x, y⟩ (src.Bounds.Add (r.Min.Sub sp))) := by
      intro hc
      have h3 := hiff.2 hc
      simp only [Rectangle.Empty, Point.In, Bool.or_eq_true, Bool.and_eq_true,
        decide_eq_true_eq] at he h3
      omega
    rw [if_pos he, if_neg hno]
  · rw [if_neg he]
    simp only [hx, hy]
    by_cases hc : (Point.In ⟨x, y⟩ r ∧ Point.In ⟨x, y⟩ dst.Bounds ∧
          Point.In ⟨x, y⟩ (src.Bounds.Add (r.Min.Sub sp)))
    · rw [if_pos hc, if_pos (hiff.2 hc)]
    · rw [if_neg hc, if_neg (mt hiff.1 hc)]

/-- C10: for a derivative with bounds `(0,0)-(W,H)` and a watermark with bounds
`(0,0)-(w,h)`, the rectangle handed to `draw.Draw` starts at `(0, H-h)`, the
bounds of the derivative stay, every pixel outside the footprint
`0 ≤ x < w`, `H-h ≤ y < H` keeps its colour, and a pixel of the derivative
inside the footprint receives the watermark pixel `(x, y-(H-h))` composed over
it, so the mark is moved and not scaled. -/
theorem addWatermark_placement {C : Type} (over : C → C → C) (img wm : Image C)
    (W H w h : Int)
    (himg : img.Bounds = ⟨ZP, ⟨W, H⟩⟩) (hwm : wm.Bounds = ⟨ZP, ⟨w, h⟩⟩) :
    (watermarkRect img wm).Min = ⟨0, H - h⟩ ∧
    (addWatermark over img wm).Bounds = img.Bounds ∧
    (∀ x y : Int, ¬ (0 ≤ x ∧ x < w ∧ H - h ≤ y ∧ y < H) →
      (addWatermark over img wm).At x y = img.At x y) ∧
    (∀ x y : Int, 0 ≤ x → x < w → x < W → H - h ≤ y → 0 ≤ y → y < H →
      (addWatermark over img wm).At x y = over (wm.At x (y - (H - h))) (img.At x y)) := by
  refine ⟨?_, Draw_Bounds _ _ _ _ _, ?_, ?_⟩
  · simp [watermarkRect, himg, hwm]
  · intro x y hout
    rw [addWatermark, Draw_At, if_neg]
    simp only [watermarkRect, himg, hwm, ZP, Rectangle.Add, Rectangle.Size, Point.Sub,
      Point.In, Bool.and_eq_true, decide_eq_true_eq]
    omega
  · intro x y hx0 hxw hxW hy hy0 hyH
    rw [addWatermark, Draw_At, if_pos]
    · simp only [watermarkRect, himg, hwm, ZP]
      congr 2 <;> omega
    · simp only [watermarkRect, himg, hwm, ZP, Rectangle.Add, Rectangle.Size, Point.Sub,
        Point.In, Bool.and_eq_true, decide_eq_true_eq]
      omega

/-! ## Keys and documents -/

/-- The key of the hash determines the slug. -/
theorem append_sha_inj (a b : String) (h : a ++ ".sha" = b ++ ".sha") : a = b := by
  have := congrArg String.data h
  simp only [String.data_append] at this
  exact String.ext (List.append_cancel_right this)

/-- The key of the run id determines the slug. -/
theorem append_id_inj (a b : String) (h : a ++ ".id" = b ++ ".id") : a = b := by
  have := congrArg String.data h
  simp only [String.data_append] at this
  exact String.ext (List.append_cancel_right this)

/-- A key of a hash is never a key of a run id. -/
theorem append_sha_ne_id (a b : String) : a ++ ".sha" ≠ b ++ ".id" := by
  intro h
  have := congrArg (fun s => s.data.getLast?) h
  simp [String.data_append, List.getLast?_append] at this

/-- Reading a string after `Set`. -/
@[simp]
theorem GetString_SetString (d : Doc) (key value k : String) :
    (d.SetString key value).GetString k = if k = key then value else d.GetString k := by
  unfold Doc.GetString Doc.SetString
  by_cases h : k = key <;> simp [h]

/-- Reading a slice after `Set`. -/
@[simp]
theorem GetStringSlice_SetSlice (d : Doc) (key k : String) (value : List String) :
    (d.SetSlice key value).GetStringSlice k = if k = key then value else d.GetStringSlice k := by
  unfold Doc.GetStringSlice Doc.SetSlice
  by_cases h : k = key <;> simp [h]

/-- The keys of two photos with different slugs are different. -/
theorem keys_ne {C : Type} (env : Env C) (p q : String)
    (h : env.slugMake (Base p) ≠ env.slugMake (Base q)) :
    shaKey env p ≠ shaKey env q ∧ idKey env p ≠ idKey env q := by
  exact ⟨fun e => h (append_sha_inj _ _ e), fun e => h (append_id_inj _ _ e)⟩

/-- The hash key of a photo is not the run id key of any photo. -/
theorem shaKey_ne_idKey {C : Type} (env : Env C) (p q : String) :
    shaKey env p ≠ idKey env q := append_sha_ne_id _ _

/-- A round for `q` leaves the stored hash of `p` alone when it skips or when
the slugs differ; after a round for `p` the stored hash is the hash of `p`. -/
theorem configStep_sha_other {C : Type} (env : Env C) (unique : String) (cfg : Doc)
    (p q : String) (h : env.slugMake (Base p) ≠ env.slugMake (Base q)) :
    (configStep env unique cfg q).GetString (shaKey env p) = cfg.GetString (shaKey env p) ∧
      (configStep env unique cfg q).GetString (idKey env p) = cfg.GetString (idKey env p) := by
  unfold configStep
  split
  · exact ⟨rfl, rfl⟩
  · have h1 := (keys_ne env p q h).1
    have h2 := (keys_ne env p q h).2
    have h3 := shaKey_ne_idKey env p q
    have h4 := (shaKey_ne_idKey env q p).symm
    simp [h1, h2, h3, h4]

/-- After the round of `p` the stored hash of `p` is its hash. -/
theorem configStep_sha_self {C : Type} (env : Env C) (unique : String) (cfg : Doc)
    (p : String) :
    (configStep env unique cfg p).GetString (shaKey env p) = env.GetSHA1 p := by
  unfold configStep
  split
  · assumption
  · simp [shaKey_ne_idKey env p p]

/-- The round of a photo whose stored hash matches leaves the document alone. -/
theorem configStep_skip {C : Type} (env : Env C) (unique : String) (cfg : Doc)
    (p : String) (h : cfg.GetString (shaKey env p) = env.GetSHA1 p) :
    configStep env unique cfg p = cfg := by
  simp [configStep, h]

/-- The round of a photo whose stored hash differs records the run id. -/
theorem configStep_id_self {C : Type} (env : Env C) (unique : String) (cfg : Doc)
    (p : String) (h : cfg.GetString (shaKey env p) ≠ env.GetSHA1 p) :
    (configStep env unique cfg p).GetString (idKey env p) = unique := by
  simp [configStep, h]

/-! ## The loops -/

/-- The loop over `sizes` when the photo opens and every write succeeds: it ends
normally, the document is untouched, one path per size is appended and the effects are the
rounds of the sizes in order. -/
theorem sizesLoop_ok {C : Type} (env : Env C) (wm : Image C) (watermark : Bool)
    (unique photo author cat name : String) (src : Image C)
    (hopen : env.imagingOpen photo = some src)
    (hdir : ∀ dir, env.MkdirAll dir = true)
    (hsave : ∀ img out, env.imagingSave img out = true)
    (sizes : List Int) (idx : Nat) (st : RunState C) :
    sizesLoop env wm watermark unique photo author cat name idx sizes st =
      .ok ⟨st.config, st.ap ++ sizeEntries unique cat name sizes,
        st.trace ++ (sizes.enumFrom idx).flatMap
          (fun r => roundEvents env wm watermark unique photo author cat src r.1 r.2)⟩ := by
  induction sizes generalizing idx st with
  | nil => simp [sizesLoop, sizeEntries]
  | cons size rest ih =>
    simp only [sizesLoop, hopen, saveImage, hdir, hsave, if_true, ih, List.enumFrom_cons,
      List.flatMap_cons, sizeEntries, List.map_cons, roundEvents]
    by_cases hm : watermark = true ∧ idx = 0
    · obtain ⟨hw, hi⟩ := hm
      subst hi
      simp [hw]
    · have hm' : (watermark && idx == 0) = false := by
        rw [Bool.and_eq_false_iff]
        by_cases hw : watermark = true
        · right; simpa using fun hi => hm ⟨hw, hi⟩
        · left; simpa using hw
      simp [hm, hm']

/-- Whenever the loop over `sizes` ends normally the document is untouched and one
path per size has been appended. -/
theorem sizesLoop_config {C : Type} (env : Env C) (wm : Image C) (watermark : Bool)
    (unique photo author cat name : String) (sizes : List Int) (idx : Nat)
    (st st1 : RunState C)
    (h : sizesLoop env wm watermark unique photo author cat name idx sizes st = .ok st1) :
    st1.config = st.config ∧ st1.ap = st.ap ++ sizeEntries unique cat name sizes := by
  induction sizes generalizing idx st with
  | nil =>
    simp only [sizesLoop, Except.ok.injEq] at h
    subst h
    simp [sizeEntries]
  | cons size rest ih =>
    simp only [sizesLoop] at h
    split at h
    · exact absurd h (by simp)
    · split at h
      · exact absurd h (by simp)
      · have := ih _ _ h
        obtain ⟨hc, ha⟩ := this
        refine ⟨?_, ?_⟩
        · rw [hc]; split <;> rfl
        · rw [ha]
          simp only [sizeEntries, List.map_cons, List.append_assoc, List.singleton_append]
          congr 1
          split <;> rfl

/-- The body of the loop over `photos` for a photo whose stored hash matches. -/
theorem photoStep_skip {C : Type} (env : Env C) (wm : Image C) (watermark : Bool)
    (unique author cat : String) (sizes : List Int) (st : RunState C) (photo : String)
    (hsha : st.config.GetString (shaKey env photo) = env.GetSHA1 photo) :
    photoStep env wm watermark unique author cat sizes st photo = .ok st := by
  simp only [shaKey] at hsha
  simp [photoStep, hsha]

/-- The body of the loop over `photos` for a photo whose stored hash differs, when
the photo opens and every write succeeds. -/
theorem photoStep_process {C : Type} (env : Env C) (wm : Image C) (watermark : Bool)
    (unique author cat : String) (sizes : List Int) (st : RunState C) (photo : String)
    (src : Image C)
    (hsha : st.config.GetString (shaKey env photo) ≠ env.GetSHA1 photo)
    (hopen : env.imagingOpen photo = some src)
    (hdir : ∀ dir, env.MkdirAll dir = true)
    (hsave : ∀ img out, env.imagingSave img out = true) :
    photoStep env wm watermark unique author cat sizes st photo =
      .ok ⟨configStep env unique st.config photo,
        st.ap ++ sizeEntries unique cat (GetFileName env (Base photo) author) sizes ++
          [sqipEntry unique cat (GetFileName env (Base photo) author)],
        st.trace ++ photoEvents env wm watermark unique photo author cat src sizes⟩ := by
  have hsha' := hsha
  simp only [shaKey] at hsha'
  simp [photoStep, hsha', sizesLoop_ok env wm watermark unique photo author cat _ src hopen hdir
    hsave, configStep, hsha, shaKey, idKey, sqipEntry, photoEvents, makeSQIP]

/-- Whenever the body ends normally, the document has changed by `configStep`. -/
theorem photoStep_config {C : Type} (env : Env C) (wm : Image C) (watermark : Bool)
    (unique author cat : String) (sizes : List Int) (st st1 : RunState C) (photo : String)
    (h : photoStep env wm watermark unique author cat sizes st photo = .ok st1) :
    st1.config = configStep env unique st.config photo := by
  unfold photoStep at h
  simp only at h
  unfold configStep shaKey idKey
  split at h
  · rename_i hs
    simp only [Except.ok.injEq] at h
    subst h
    simp [hs]
  · rename_i hs
    split at h
    · exact absurd h (by simp)
    · rename_i st2 hl
      simp only [Except.ok.injEq] at h
      subst h
      simp [hs, (sizesLoop_config _ _ _ _ _ _ _ _ _ _ _ _ hl).1]

/-- Whenever the loop over `photos` ends normally, the document is the fold of
`configStep` over the photos. -/
theorem photosLoop_config {C : Type} (env : Env C) (wm : Image C) (watermark : Bool)
    (unique author cat : String) (sizes : List Int) (photos : List String)
    (st st1 : RunState C)
    (h : photosLoop env wm watermark unique author cat sizes photos st = .ok st1) :
    st1.config = photos.foldl (configStep env unique) st.config := by
  induction photos generalizing st with
  | nil =>
    simp only [photosLoop, Except.ok.injEq] at h
    subst h; rfl
  | cons p rest ih =>
    simp only [photosLoop] at h
    split at h
    · exact absurd h (by simp)
    · rename_i st2 hp
      rw [List.foldl_cons, ← photoStep_config _ _ _ _ _ _ _ _ _ _ hp]
      exact ih _ h

/-- A loop over photos whose stored hashes all match ends normally in the state it
started in. -/
theorem photosLoop_all_skip {C : Type} (env : Env C) (wm : Image C) (watermark : Bool)
    (unique author cat : String) (sizes : List Int) (photos : List String)
    (st : RunState C)
    (h : ∀ p ∈ photos, st.config.GetString (shaKey env p) = env.GetSHA1 p) :
    photosLoop env wm watermark unique author cat sizes photos st = .ok st := by
  induction photos with
  | nil => rfl
  | cons p rest ih =>
    simp only [photosLoop, photoStep_skip _ _ _ _ _ _ _ _ _ (h p (List.mem_cons_self _ _))]
    exact ih (fun q hq => h q (List.mem_cons_of_mem _ hq))

/-! ## Runs -/

/-- The result of a run whose scan, watermark and loop succeed. -/
theorem Resize_of_loop {C : Type} (env : Env C) (store : Store)
    (inPath author outPrefix : String) (sizes : List Int) (watermark : Bool)
    (photos : List String) (wm : Image C) (st : RunState C)
    (hscan : GetPhotos (env.lstat inPath) inPath = some photos)
    (hwm : env.imagingOpen "watermark.png" = some wm)
    (hloop : photosLoop env wm watermark env.UniqueID author (env.slugMake outPrefix) sizes
      photos ⟨store.ReadInConfig (env.slugMake outPrefix),
        (store.ReadInConfig "photos").GetStringSlice (env.slugMake outPrefix), []⟩ = .ok st) :
    Resize env store inPath author outPrefix sizes watermark =
      ⟨st.trace,
        (store.WriteConfigAs (env.slugMake outPrefix) st.config).WriteConfigAs "photos"
          ((store.ReadInConfig "photos").SetSlice (env.slugMake outPrefix) st.ap),
        .completed⟩ := by
  simp [Resize, hscan, hwm, hloop]

/-- A completed run has scanned, opened the watermark and finished the loop. -/
theorem Resize_completed_inv {C : Type} (env : Env C) (store : Store)
    (inPath author outPrefix : String) (sizes : List Int) (watermark : Bool)
    (h : (Resize env store inPath author outPrefix sizes watermark).status = .completed) :
    ∃ photos wm st, GetPhotos (env.lstat inPath) inPath = some photos ∧
      env.imagingOpen "watermark.png" = some wm ∧
      photosLoop env wm watermark env.UniqueID author (env.slugMake outPrefix) sizes
        photos ⟨store.ReadInConfig (env.slugMake outPrefix),
          (store.ReadInConfig "photos").GetStringSlice (env.slugMake outPrefix), []⟩ = .ok st := by
  unfold Resize at h
  simp only at h
  split at h
  · exact absurd h (by simp)
  · rename_i photos hscan
    split at h
    · exact absurd h (by simp)
    · rename_i wm hwm
      split at h
      · exact absurd h (by simp)
      · rename_i st hloop
        exact ⟨photos, wm, st, hscan, hwm, hloop⟩

/-- The documents after a run are the old ones, or the old ones with the category
document and the path list document written in that order. -/
theorem Resize_store_cases {C : Type} (env : Env C) (store : Store)
    (inPath author outPrefix : String) (sizes : List Int) (watermark : Bool) :
    (Resize env store inPath author outPrefix sizes watermark).store = store ∨
    ∃ cfg ap, (Resize env store inPath author outPrefix sizes watermark).store =
      (store.WriteConfigAs (env.slugMake outPrefix) cfg).WriteConfigAs "photos"
          ((store.ReadInConfig "photos").SetSlice (env.slugMake outPrefix) ap) := by
  unfold Resize
  simp only
  split
  · exact Or.inl rfl
  · split
    · exact Or.inl rfl
    · split
      · exact Or.inl rfl
      · exact Or.inr ⟨_, _, rfl⟩

/-- When photos with one slug have one hash, the rounds keep the stored hash of
every photo already seen equal to its hash. -/
theorem foldl_configStep_inv {C : Type} (env : Env C) (unique : String)
    (photos pre : List String) (cfg : Doc)
    (hcompat : ∀ p ∈ pre ++ photos, ∀ q ∈ photos,
      env.slugMake (Base p) = env.slugMake (Base q) → env.GetSHA1 p = env.GetSHA1 q)
    (hinv : ∀ p ∈ pre, cfg.GetString (shaKey env p) = env.GetSHA1 p) :
    ∀ p ∈ pre ++ photos,
      (photos.foldl (configStep env unique) cfg).GetString (shaKey env p) = env.GetSHA1 p := by
  induction photos generalizing pre cfg with
  | nil => simpa using hinv
  | cons q rest ih =>
    intro p hp
    rw [List.foldl_cons]
    have hsplit : pre ++ q :: rest = (pre ++ [q]) ++ rest := by simp
    rw [hsplit] at hp
    refine ih (pre ++ [q]) _ ?_ ?_ p hp
    · intro a ha b hb
      rw [← hsplit] at ha
      exact hcompat a ha b (List.mem_cons_of_mem _ hb)
    · intro a ha
      by_cases hs : env.slugMake (Base a) = env.slugMake (Base q)
      · have hk : shaKey env a = shaKey env q := by unfold shaKey; rw [hs]
        rw [hk, configStep_sha_self]
        have ha' : a ∈ pre ++ q :: rest := by
          rw [hsplit]; exact List.mem_append_left _ ha
        exact (hcompat a ha' q (List.mem_cons_self _ _) hs).symm
      · rw [(configStep_sha_other env unique cfg a q hs).1]
        rcases List.mem_append.1 ha with h1 | h1
        · exact hinv a h1
        · simp only [List.mem_singleton] at h1
          exact absurd (by rw [h1]) hs

/-- Writing back the two documents that are stored changes nothing. -/
theorem store_write_same (s : Store) (cat : String) (cfg idx : Doc)
    (hc : s cat = some cfg) (hi : s "photos" = some idx) :
    (s.WriteConfigAs cat cfg).WriteConfigAs "photos" idx = s := by
  funext n
  unfold Store.WriteConfigAs
  by_cases h1 : n = "photos"
  · simp [h1, hi]
  · by_cases h2 : n = cat
    · subst h2
      simp [h1, hc]
    · simp [h1, h2]

/-- Setting a slice twice is setting it once. -/
theorem SetSlice_same (d : Doc) (key : String) (value : List String) :
    (d.SetSlice key value).SetSlice key value = d.SetSlice key value := by
  unfold Doc.SetSlice
  congr 1
  funext k
  by_cases h : k = key <;> simp [h]

/-- C1 (amended): when a first run completes, no two scanned photos of
different content share a slugified base name, and the category slug is
neither `photos` nor empty, a second run on the same tree with the same
hashes, started on the documents of the first, writes no file, calls no
placeholder generation and leaves every document as the first run left it. -/
theorem resize_idempotent_on_distinct_slugs {C : Type} (env1 env2 : Env C) (store : Store)
    (inPath author outPrefix : String) (sizes : List Int) (watermark : Bool)
    (photos : List String)
    (hscan : GetPhotos (env1.lstat inPath) inPath = some photos)
    (hdone : (Resize env1 store inPath author outPrefix sizes watermark).status = .completed)
    (htree : env2.lstat inPath = env1.lstat inPath)
    (hslug : env2.slugMake = env1.slugMake)
    (hsha : ∀ p ∈ photos, env2.GetSHA1 p = env1.GetSHA1 p)
    (hcompat : ∀ p ∈ photos, ∀ q ∈ photos,
      env1.slugMake (Base p) = env1.slugMake (Base q) → env1.GetSHA1 p = env1.GetSHA1 q)
    (hcat : env1.slugMake outPrefix ≠ "photos")
    (hcat0 : env1.slugMake outPrefix ≠ "") :
    (Resize env2 (Resize env1 store inPath author outPrefix sizes watermark).store
        inPath author outPrefix sizes watermark).trace = [] ∧
    (Resize env2 (Resize env1 store inPath author outPrefix sizes watermark).store
        inPath author outPrefix sizes watermark).store =
      (Resize env1 store inPath author outPrefix sizes watermark).store := by
  obtain ⟨photos1, wm1, st1, hscan1, hwm1, hloop1⟩ :=
    Resize_completed_inv env1 store inPath author outPrefix sizes watermark hdone
  have hp : photos1 = photos := by
    rw [hscan] at hscan1; exact (Option.some.inj hscan1).symm
  subst hp
  rw [Resize_of_loop env1 store inPath author outPrefix sizes watermark photos1 wm1 st1 hscan1
    hwm1 hloop1]
  have hcfg := photosLoop_config _ _ _ _ _ _ _ _ _ _ hloop1
  simp only at hcfg
  have hinv : ∀ p ∈ photos1, st1.config.GetString (shaKey env2 p) = env2.GetSHA1 p := by
    intro p hp
    have := foldl_configStep_inv env1 env1.UniqueID photos1 []
      (store.ReadInConfig (env1.slugMake outPrefix))
      (by simpa using hcompat) (by simp) p (by simpa using hp)
    rw [hsha p hp, hcfg]
    unfold shaKey at this ⊢
    rw [hslug]; exact this
  have hscan2 : GetPhotos (env2.lstat inPath) inPath = some photos1 := by rw [htree]; exact hscan1
  have hr1 : ((store.WriteConfigAs (env1.slugMake outPrefix) st1.config).WriteConfigAs "photos"
      ((store.ReadInConfig "photos").SetSlice (env1.slugMake outPrefix) st1.ap)).ReadInConfig
        (env2.slugMake outPrefix) = st1.config := by
    simp [Store.ReadInConfig, configName, Store.WriteConfigAs, hslug, hcat, hcat0]
  have hr2 : ((store.WriteConfigAs (env1.slugMake outPrefix) st1.config).WriteConfigAs "photos"
      ((store.ReadInConfig "photos").SetSlice (env1.slugMake outPrefix) st1.ap)).ReadInConfig
        "photos" = (store.ReadInConfig "photos").SetSlice (env1.slugMake outPrefix) st1.ap := by
    simp [Store.ReadInConfig, configName, Store.WriteConfigAs]
  cases hwm2 : env2.imagingOpen "watermark.png" with
  | none => simp [Resize, hscan2, hwm2]
  | some wm2 =>
    have hloop2 := photosLoop_all_skip env2 wm2 watermark env2.UniqueID author
      (env2.slugMake outPrefix) sizes photos1 ⟨st1.config, st1.ap, []⟩ hinv
    have hstart : (⟨((store.WriteConfigAs (env1.slugMake outPrefix)
          st1.config).WriteConfigAs "photos" ((store.ReadInConfig "photos").SetSlice
            (env1.slugMake outPrefix) st1.ap)).ReadInConfig (env2.slugMake outPrefix),
        (((store.WriteConfigAs (env1.slugMake outPrefix) st1.config).WriteConfigAs "photos"
          ((store.ReadInConfig "photos").SetSlice (env1.slugMake outPrefix)
            st1.ap)).ReadInConfig "photos").GetStringSlice (env2.slugMake outPrefix), []⟩ :
          RunState C) = ⟨st1.config, st1.ap, []⟩ := by
      rw [hr1, hr2]; simp [hslug]
    rw [Resize_of_loop env2 _ inPath author outPrefix sizes watermark photos1 wm2
      ⟨st1.config, st1.ap, []⟩ hscan2 hwm2 (by rw [hstart]; exact hloop2)]
    refine ⟨rfl, ?_⟩
    simp only [hr2, hslug, SetSlice_same]
    apply store_write_same
    · simp [Store.WriteConfigAs, hcat]
    · simp [Store.WriteConfigAs]

/-- A loop in which only the stored hash of `q` differs, the slug of `q` being its
own: `q` is processed once and every other round skips. -/
theorem photosLoop_one_changed {C : Type} (env : Env C) (wm : Image C) (watermark : Bool)
    (unique author cat : String) (sizes : List Int) (q : String) (src : Image C)
    (hopen : env.imagingOpen q = some src)
    (hdir : ∀ dir, env.MkdirAll dir = true)
    (hsave : ∀ img out, env.imagingSave img out = true)
    (photos : List String) (st : RunState C)
    (hq : q ∈ photos)
    (hchg : st.config.GetString (shaKey env q) ≠ env.GetSHA1 q)
    (hrest : ∀ p ∈ photos, p ≠ q → st.config.GetString (shaKey env p) = env.GetSHA1 p)
    (hinj : ∀ p ∈ photos, p ≠ q → env.slugMake (Base p) ≠ env.slugMake (Base q)) :
    photosLoop env wm watermark unique author cat sizes photos st =
      .ok ⟨configStep env unique st.config q,
        st.ap ++ sizeEntries unique cat (GetFileName env (Base q) author) sizes ++
          [sqipEntry unique cat (GetFileName env (Base q) author)],
        st.trace ++ photoEvents env wm watermark unique q author cat src sizes⟩ := by
  induction photos with
  | nil => exact absurd hq (List.not_mem_nil _)
  | cons p rest ih =>
    by_cases hpq : p = q
    · subst hpq
      simp only [photosLoop, photoStep_process env wm watermark unique author cat sizes st p src
        hchg hopen hdir hsave]
      apply photosLoop_all_skip
      intro a ha
      simp only
      by_cases haq : a = p
      · rw [haq, configStep_sha_self]
      · rw [(configStep_sha_other env unique st.config a p
          (hinj a (List.mem_cons_of_mem _ ha) haq)).1]
        exact hrest a (List.mem_cons_of_mem _ ha) haq
    · simp only [photosLoop, photoStep_skip env wm watermark unique author cat sizes st p
        (hrest p (List.mem_cons_self _ _) hpq)]
      refine ih ?_ ?_ ?_
      · rcases List.mem_cons.1 hq with h | h
        · exact absurd h.symm hpq
        · exact h
      · exact fun a ha => hrest a (List.mem_cons_of_mem _ ha)
      · exact fun a ha => hinj a (List.mem_cons_of_mem _ ha)

/-- Once the stored hash of `p` matches, rounds of `p` and of photos with other
slugs leave the entries of `p` alone. -/
theorem foldl_configStep_keep {C : Type} (env : Env C) (unique : String) (p : String)
    (photos : List String) (cfg : Doc)
    (huniq : ∀ q ∈ photos, env.slugMake (Base q) = env.slugMake (Base p) → q = p)
    (hsha : cfg.GetString (shaKey env p) = env.GetSHA1 p) :
    (photos.foldl (configStep env unique) cfg).GetString (shaKey env p) =
        cfg.GetString (shaKey env p) ∧
      (photos.foldl (configStep env unique) cfg).GetString (idKey env p) =
        cfg.GetString (idKey env p) := by
  induction photos generalizing cfg with
  | nil => exact ⟨rfl, rfl⟩
  | cons q rest ih =>
    rw [List.foldl_cons]
    have hu := fun a ha => huniq a (List.mem_cons_of_mem _ ha)
    by_cases hs : env.slugMake (Base q) = env.slugMake (Base p)
    · have hqp := huniq q (List.mem_cons_self _ _) hs
      subst hqp
      rw [configStep_skip env unique cfg q hsha]
      exact ih cfg hu hsha
    · have hf := configStep_sha_other env unique cfg p q (fun e => hs e.symm)
      have := ih (configStep env unique cfg q) hu (by rw [hf.1]; exact hsha)
      rw [this.1, this.2, hf.1, hf.2]
      exact ⟨rfl, rfl⟩

/-- After the rounds of a list that holds `p`, whose slug no other photo of the list
shares, the stored hash of `p` is its hash, and the run id is recorded when the hash stored
before differed. -/
theorem foldl_configStep_entry {C : Type} (env : Env C) (unique : String) (p : String)
    (photos : List String) (cfg : Doc) (hp : p ∈ photos)
    (huniq : ∀ q ∈ photos, env.slugMake (Base q) = env.slugMake (Base p) → q = p) :
    (photos.foldl (configStep env unique) cfg).GetString (shaKey env p) = env.GetSHA1 p ∧
      (cfg.GetString (shaKey env p) ≠ env.GetSHA1 p →
        (photos.foldl (configStep env unique) cfg).GetString (idKey env p) = unique) := by
  induction photos generalizing cfg with
  | nil => exact absurd hp (List.not_mem_nil _)
  | cons q rest ih =>
    rw [List.foldl_cons]
    have hu := fun a ha => huniq a (List.mem_cons_of_mem _ ha)
    by_cases hqp : q = p
    · subst hqp
      have hk := foldl_configStep_keep env unique q rest (configStep env unique cfg q) hu
        (configStep_sha_self env unique cfg q)
      rw [hk.1, hk.2]
      exact ⟨configStep_sha_self env unique cfg q, configStep_id_self env unique cfg q⟩
    · have hs : env.slugMake (Base p) ≠ env.slugMake (Base q) :=
        fun e => hqp (huniq q (List.mem_cons_self _ _) e.symm)
      have hf := configStep_sha_other env unique cfg p q hs
      have hp' : p ∈ rest := by
        rcases List.mem_cons.1 hp with h | h
        · exact absurd h.symm hqp
        · exact h
      have := ih (configStep env unique cfg q) hp' hu
      rw [hf.1] at this
      exact this

/-- The calls of `addWatermark` among the effects of a processed photo. -/
theorem mem_photoEvents_addWatermark {C : Type} (env : Env C) (wm : Image C)
    (watermark : Bool) (unique photo author cat : String) (src : Image C)
    (sizes : List Int) (p : String) (i : Nat) :
    Event.addWatermark p i ∈ photoEvents env wm watermark unique photo author cat src sizes ↔
      p = photo ∧ watermark = true ∧ i = 0 ∧ sizes ≠ [] := by
  simp only [photoEvents, List.mem_append, List.mem_flatMap, List.mem_singleton, reduceCtorEq,
    or_false, roundEvents, Prod.exists]
  constructor
  · rintro ⟨j, size, hmem, hev⟩
    have hne : sizes ≠ [] := by
      rintro rfl
      simp at hmem
    split at hev
    · rename_i hc
      simp only [List.mem_cons, Event.addWatermark.injEq, reduceCtorEq, List.mem_singleton,
        or_false, List.not_mem_nil] at hev
      exact ⟨hev.1, hc.1, hev.2.trans hc.2, hne⟩
    · simp at hev
  · rintro ⟨rfl, hw, rfl, hne⟩
    cases sizes with
    | nil => exact absurd rfl hne
    | cons size rest =>
      exact ⟨0, size, by simp [List.enumFrom_cons], by simp [hw]⟩

/-- C3: when the hash stored under the slug of the base name of a photo is the
hash of the photo, the round of the loop for it ends normally and leaves the
whole state as it was: no file written, no placeholder call, no entry of the
category document changed. -/
theorem skip_on_matching_hash {C : Type} (env : Env C) (watermarkImage : Image C)
    (watermark : Bool) (unique author cat : String) (sizes : List Int) (st : RunState C)
    (photo : String)
    (hsha : st.config.GetString (env.slugMake (Base photo) ++ ".sha") = env.GetSHA1 photo) :
    photoStep env watermarkImage watermark unique author cat sizes st photo = .ok st ∧
    ∀ st1, photoStep env watermarkImage watermark unique author cat sizes st photo = .ok st1 →
      st1.trace = st.trace ∧
      st1.config.GetString (env.slugMake (Base photo) ++ ".sha") =
        st.config.GetString (env.slugMake (Base photo) ++ ".sha") ∧
      st1.config.GetString (env.slugMake (Base photo) ++ ".id") =
        st.config.GetString (env.slugMake (Base photo) ++ ".id") := by
  have h := photoStep_skip env watermarkImage watermark unique author cat sizes st photo hsha
  refine ⟨h, ?_⟩
  intro st1 h1
  rw [h] at h1
  cases h1
  exact ⟨rfl, rfl, rfl⟩

/-- C3 on the recorded photo of `seenStore`. -/
theorem skip_on_matching_hash_witness :
    (seenStore.ReadInConfig "blog").GetString (slugAscii (Base "in/photo.jpg") ++ ".sha") =
      "h1" ∧
    photoStep (demoEnv "run2" singleDir (fun _ => "h1")) (flatImage 2 1 7) true "run2" "jane"
        "blog" [2560, 1280, 640] ⟨seenStore.ReadInConfig "blog", [], []⟩ "in/photo.jpg" =
      .ok ⟨seenStore.ReadInConfig "blog", [], []⟩ :=
  ⟨by decide,
    (skip_on_matching_hash (demoEnv "run2" singleDir (fun _ => "h1")) (flatImage 2 1 7) true
      "run2" "jane" "blog" [2560, 1280, 640] ⟨seenStore.ReadInConfig "blog", [], []⟩
      "in/photo.jpg" (by decide)).1⟩

/-- C9: a photo that is processed, opens and is saved without error goes
through the rounds of its sizes and the placeholder call; `addWatermark` is
called in the round of index `i` exactly when the flag is set and `i = 0`, the
file of a marked round holds the marked derivative and the file of any other
round the plain resized image; with sizes 2560, 1280, 640 and the flag set
only the 2560 derivative is marked, and the placeholder call receives the
source path. -/
theorem watermark_scope {C : Type} (env : Env C) (watermarkImage : Image C)
    (watermark : Bool) (unique author cat : String) (sizes : List Int) (st : RunState C)
    (photo : String) (src : Image C)
    (hsha : st.config.GetString (env.slugMake (Base photo) ++ ".sha") ≠ env.GetSHA1 photo)
    (hopen : env.imagingOpen photo = some src)
    (hdir : ∀ dir, env.MkdirAll dir = true)
    (hsave : ∀ img out, env.imagingSave img out = true) :
    (∃ st1, photoStep env watermarkImage watermark unique author cat sizes st photo = .ok st1 ∧
      st1.trace =
        st.trace ++ photoEvents env watermarkImage watermark unique photo author cat src sizes) ∧
    (∀ p i, Event.addWatermark p i ∈
        photoEvents env watermarkImage watermark unique photo author cat src sizes ↔
      p = photo ∧ watermark = true ∧ i = 0 ∧ sizes ≠ []) ∧
    photoEvents env watermarkImage true unique photo author cat src [2560, 1280, 640] =
      [.addWatermark photo 0,
        .saveImage
          (Join [getFilePath unique cat 2560, GetFileName env (Base photo) author ++ ".jpg"])
          (addWatermark env.over (resizeImage env src 2560) watermarkImage),
        .saveImage
          (Join [getFilePath unique cat 1280, GetFileName env (Base photo) author ++ ".jpg"])
          (resizeImage env src 1280),
        .saveImage
          (Join [getFilePath unique cat 640, GetFileName env (Base photo) author ++ ".jpg"])
          (resizeImage env src 640),
        .makeSQIP unique photo author cat] := by
  refine ⟨⟨_, photoStep_process env watermarkImage watermark unique author cat sizes st photo
    src hsha hopen hdir hsave, rfl⟩, ?_, ?_⟩
  · exact mem_photoEvents_addWatermark env watermarkImage watermark unique photo author cat
      src sizes
  · simp [photoEvents, roundEvents, List.enumFrom_cons]

/-- C9 on a photo not recorded before, with sizes 2560, 1280, 640 and the flag
set. -/
theorem watermark_scope_witness :
    Doc.empty.GetString (slugAscii (Base "in/photo.jpg") ++ ".sha") ≠ "h1" ∧
    ∀ p i, Event.addWatermark p i ∈
        photoEvents (demoEnv "run1" singleDir (fun _ => "h1")) (flatImage 2 1 7) true "run1"
          "in/photo.jpg" "jane" "blog" (flatImage 4 4 1) [2560, 1280, 640] ↔
      p = "in/photo.jpg" ∧ true = true ∧ i = 0 ∧ [(2560 : Int), 1280, 640] ≠ [] :=
  ⟨by decide,
    (watermark_scope (demoEnv "run1" singleDir (fun _ => "h1")) (flatImage 2 1 7) true "run1"
      "jane" "blog" [2560, 1280, 640] ⟨Doc.empty, [], []⟩ "in/photo.jpg" (flatImage 4 4 1)
      (by decide) rfl (fun _ => rfl) (fun _ _ => rfl)).2.1⟩

/-- C1 (amended) on `pairDir`: the first run completes and the second run has
no effect. -/
theorem resize_idempotent_on_distinct_slugs_witness :
    (Resize (demoEnv "run1" pairDir (pairSha "ha")) emptyStore "in" "jane" "blog"
      [2560, 1280, 640] true).status = .completed ∧
    (Resize (demoEnv "run2" pairDir (pairSha "ha"))
      (Resize (demoEnv "run1" pairDir (pairSha "ha")) emptyStore "in" "jane" "blog"
        [2560, 1280, 640] true).store "in" "jane" "blog" [2560, 1280, 640] true).trace = [] :=
  ⟨by decide,
    (resize_idempotent_on_distinct_slugs (demoEnv "run1" pairDir (pairSha "ha"))
      (demoEnv "run2" pairDir (pairSha "ha")) emptyStore "in" "jane" "blog" [2560, 1280, 640]
      true ["in/a.jpg", "in/b.png"] (by decide) (by decide) rfl rfl (fun _ _ => rfl)
      (by decide) (by decide) (by decide)).1⟩

/-- C1 fails as stated: the two `photo.jpg` of `twinDir` share the slug
`photo-jpg`, the first run leaves the hash of the second of them in the
document, and the second run on the unchanged tree writes both derivatives
again (six effects) and replaces the recorded run id.  It also fails for a
category with an empty slug, whose document is written to `.moul/.toml` and
read from `.moul/config.toml`, and for the category `photos`, whose document
is overwritten by the path lists: the second run processes both photos of
`pairDir` again (four effects). -/
theorem resize_idempotent_counterexample :
    twinFirst.status = .completed ∧ twinSecond.status = .completed ∧
    twinSecond.trace.length = 6 ∧
    (twinFirst.store.ReadInConfig "blog").GetString "photo-jpg.id" = "run1" ∧
    (twinSecond.store.ReadInConfig "blog").GetString "photo-jpg.id" = "run2" ∧
    slugAscii "!!!" = "" ∧ blankFirst.status = .completed ∧ blankSecond.trace.length = 4 ∧
    albumFirst.status = .completed ∧ albumSecond.trace.length = 4 := by
  decide

/-- C2 (amended): when a first run completes, no two scanned photos share a
slugified base name, the category slug is neither `photos` nor empty, and at
the second run the hash of the one photo `q` differs while the watermark and
`q` open and every write succeeds, the second run completes, its effects are
exactly the
rounds of `q` for each size and one placeholder call, all under the run id of
the second run, the category document is that of the first run with hash and
run id of `q` set, and the path list grows by the entries of `q` alone. -/
theorem change_detection_on_distinct_slugs {C : Type} (env1 env2 : Env C) (store : Store)
    (inPath author outPrefix : String) (sizes : List Int) (watermark : Bool)
    (photos : List String) (q : String) (wm src : Image C)
    (hscan : GetPhotos (env1.lstat inPath) inPath = some photos)
    (hdone : (Resize env1 store inPath author outPrefix sizes watermark).status = .completed)
    (htree : env2.lstat inPath = env1.lstat inPath)
    (hslug : env2.slugMake = env1.slugMake)
    (hq : q ∈ photos)
    (hchg : env2.GetSHA1 q ≠ env1.GetSHA1 q)
    (hsame : ∀ p ∈ photos, p ≠ q → env2.GetSHA1 p = env1.GetSHA1 p)
    (hinj : ∀ p ∈ photos, ∀ p' ∈ photos,
      env1.slugMake (Base p) = env1.slugMake (Base p') → p = p')
    (hcat : env1.slugMake outPrefix ≠ "photos")
    (hcat0 : env1.slugMake outPrefix ≠ "")
    (hwm : env2.imagingOpen "watermark.png" = some wm)
    (hopen : env2.imagingOpen q = some src)
    (hdir : ∀ dir, env2.MkdirAll dir = true)
    (hsave : ∀ img out, env2.imagingSave img out = true) :
    (Resize env2 (Resize env1 store inPath author outPrefix sizes watermark).store
        inPath author outPrefix sizes watermark).status = .completed ∧
    (Resize env2 (Resize env1 store inPath author outPrefix sizes watermark).store
        inPath author outPrefix sizes watermark).trace =
      photoEvents env2 wm watermark env2.UniqueID q author (env2.slugMake outPrefix) src sizes ∧
    (Resize env2 (Resize env1 store inPath author outPrefix sizes watermark).store
        inPath author outPrefix sizes watermark).store.ReadInConfig (env2.slugMake outPrefix) =
      ((((Resize env1 store inPath author outPrefix sizes watermark).store.ReadInConfig
        (env2.slugMake outPrefix)).SetString (env2.slugMake (Base q) ++ ".sha")
          (env2.GetSHA1 q)).SetString (env2.slugMake (Base q) ++ ".id") env2.UniqueID) ∧
    ((Resize env2 (Resize env1 store inPath author outPrefix sizes watermark).store
        inPath author outPrefix sizes watermark).store.ReadInConfig "photos").GetStringSlice
          (env2.slugMake outPrefix) =
      ((Resize env1 store inPath author outPrefix sizes watermark).store.ReadInConfig
          "photos").GetStringSlice (env2.slugMake outPrefix) ++
        sizeEntries env2.UniqueID (env2.slugMake outPrefix)
          (GetFileName env2 (Base q) author) sizes ++
        [sqipEntry env2.UniqueID (env2.slugMake outPrefix)
          (GetFileName env2 (Base q) author)] := by
  obtain ⟨photos1, wm1, st1, hscan1, hwm1, hloop1⟩ :=
    Resize_completed_inv env1 store inPath author outPrefix sizes watermark hdone
  have hp : photos1 = photos := by
    rw [hscan] at hscan1; exact (Option.some.inj hscan1).symm
  subst hp
  rw [Resize_of_loop env1 store inPath author outPrefix sizes watermark photos1 wm1 st1 hscan1
    hwm1 hloop1]
  have hcfg := photosLoop_config _ _ _ _ _ _ _ _ _ _ hloop1
  simp only at hcfg
  have hinv1 : ∀ p ∈ photos1, st1.config.GetString (shaKey env2 p) = env1.GetSHA1 p := by
    intro p hp
    have := foldl_configStep_inv env1 env1.UniqueID photos1 []
      (store.ReadInConfig (env1.slugMake outPrefix))
      (by
        intro a ha b hb hs
        rw [hinj a (by simpa using ha) b hb hs])
      (by simp) p (by simpa using hp)
    rw [hcfg]
    unfold shaKey at this ⊢
    rw [hslug]; exact this
  have hscan2 : GetPhotos (env2.lstat inPath) inPath = some photos1 := by rw [htree]; exact hscan1
  have hr1 : ((store.WriteConfigAs (env1.slugMake outPrefix) st1.config).WriteConfigAs "photos"
      ((store.ReadInConfig "photos").SetSlice (env1.slugMake outPrefix) st1.ap)).ReadInConfig
        (env2.slugMake outPrefix) = st1.config := by
    simp [Store.ReadInConfig, configName, Store.WriteConfigAs, hslug, hcat, hcat0]
  have hr2 : ((store.WriteConfigAs (env1.slugMake outPrefix) st1.config).WriteConfigAs "photos"
      ((store.ReadInConfig "photos").SetSlice (env1.slugMake outPrefix) st1.ap)).ReadInConfig
        "photos" = (store.ReadInConfig "photos").SetSlice (env1.slugMake outPrefix) st1.ap := by
    simp [Store.ReadInConfig, configName, Store.WriteConfigAs]
  have hstart : (⟨((store.WriteConfigAs (env1.slugMake outPrefix)
        st1.config).WriteConfigAs "photos" ((store.ReadInConfig "photos").SetSlice
          (env1.slugMake outPrefix) st1.ap)).ReadInConfig (env2.slugMake outPrefix),
      (((store.WriteConfigAs (env1.slugMake outPrefix) st1.config).WriteConfigAs "photos"
        ((store.ReadInConfig "photos").SetSlice (env1.slugMake outPrefix)
          st1.ap)).ReadInConfig "photos").GetStringSlice (env2.slugMake outPrefix), []⟩ :
        RunState C) = ⟨st1.config, st1.ap, []⟩ := by
    rw [hr1, hr2]; simp [hslug]
  have hloop2 := photosLoop_one_changed env2 wm watermark env2.UniqueID author
    (env2.slugMake outPrefix) sizes q src hopen hdir hsave photos1 ⟨st1.config, st1.ap, []⟩ hq
    (by
      simp only
      rw [hinv1 q hq]
      exact fun e => hchg e.symm)
    (by
      intro p hp hpq
      simp only
      rw [hinv1 p hp, hsame p hp hpq])
    (by
      intro p hp hpq hs
      rw [hslug] at hs
      exact hpq (hinj p hp q hq hs))
  rw [Resize_of_loop env2 _ inPath author outPrefix sizes watermark photos1 wm _ hscan2 hwm
    (by rw [hstart]; exact hloop2)]
  have hne : st1.config.GetString (shaKey env2 q) ≠ env2.GetSHA1 q := by
    rw [hinv1 q hq]; exact fun e => hchg e.symm
  refine ⟨rfl, by simp, ?_, ?_⟩
  · have hne' : st1.config.GetString (env1.slugMake (Base q) ++ ".sha") ≠ env2.GetSHA1 q := by
      simpa [shaKey, hslug] using hne
    simp only [hr1]
    simp [Store.ReadInConfig, configName, Store.WriteConfigAs, hslug, hcat, hcat0, configStep,
      hne', shaKey, idKey]
  · simp [Store.ReadInConfig, configName, Store.WriteConfigAs, hslug]

/-- C2 (amended) on `pairDir` with `a.jpg` changed between the runs. -/
theorem change_detection_on_distinct_slugs_witness :
    (Resize (demoEnv "run1" pairDir (pairSha "ha")) emptyStore "in" "jane" "blog"
      [2560, 1280, 640] true).status = .completed ∧
    pairSha "ha2" "in/a.jpg" ≠ pairSha "ha" "in/a.jpg" ∧
    (Resize (demoEnv "run2" pairDir (pairSha "ha2"))
      (Resize (demoEnv "run1" pairDir (pairSha "ha")) emptyStore "in" "jane" "blog"
        [2560, 1280, 640] true).store "in" "jane" "blog" [2560, 1280, 640] true).trace =
      photoEvents (demoEnv "run2" pairDir (pairSha "ha2")) (flatImage 4 4 1) true "run2"
        "in/a.jpg" "jane" "blog" (flatImage 4 4 1) [2560, 1280, 640] :=
  ⟨by decide, by decide,
    (change_detection_on_distinct_slugs (demoEnv "run1" pairDir (pairSha "ha"))
      (demoEnv "run2" pairDir (pairSha "ha2")) emptyStore "in" "jane" "blog" [2560, 1280, 640]
      true ["in/a.jpg", "in/b.png"] "in/a.jpg" (flatImage 4 4 1) (flatImage 4 4 1)
      (by decide) (by decide) rfl rfl (by decide) (by decide) (by decide) (by decide)
      (by decide) (by decide) rfl rfl (fun _ => rfl) (fun _ _ => rfl)).2.1⟩

/-- C2 fails as stated: in `tripleDir` only `c.jpg` changes between the runs,
yet the second run also regenerates the two unchanged `photo.jpg`, which share
a slug (six effects instead of two), and records the second run id for
them.  For a category with an empty slug and for the category `photos` the
second run over `pairDir` regenerates the unchanged `b.png` along with the
changed `a.jpg` (four effects instead of two). -/
theorem change_detection_counterexample :
    tripleFirst.status = .completed ∧ tripleSecond.status = .completed ∧
    tripleSha "h4" "in/a/photo.jpg" = tripleSha "h3" "in/a/photo.jpg" ∧
    tripleSha "h4" "in/b/photo.jpg" = tripleSha "h3" "in/b/photo.jpg" ∧
    tripleSha "h4" "in/c.jpg" ≠ tripleSha "h3" "in/c.jpg" ∧
    tripleSecond.trace.length = 6 ∧
    (tripleFirst.store.ReadInConfig "blog").GetString "photo-jpg.id" = "run1" ∧
    (tripleSecond.store.ReadInConfig "blog").GetString "photo-jpg.id" = "run2" ∧
    pairSha "ha2" "in/b.png" = pairSha "ha" "in/b.png" ∧
    blankFirst.status = .completed ∧ blankChanged.trace.length = 4 ∧
    albumFirst.status = .completed ∧ albumChanged.trace.length = 4 := by
  decide

/-- C4 (amended): the round of a photo whose stored hash matches appends
nothing to the path list of the category; and a run in which the watermark
opens and every scanned photo matches completes without any effect and writes
back the list it loaded, so running again on unchanged input does not make the
list grow. -/
theorem skipped_photo_not_indexed {C : Type} (env : Env C) (store : Store)
    (inPath author outPrefix : String) (sizes : List Int) (watermark : Bool)
    (photos : List String) (wm : Image C)
    (hscan : GetPhotos (env.lstat inPath) inPath = some photos)
    (hwm : env.imagingOpen "watermark.png" = some wm)
    (hall : ∀ p ∈ photos,
      (store.ReadInConfig (env.slugMake outPrefix)).GetString
        (env.slugMake (Base p) ++ ".sha") = env.GetSHA1 p) :
    (∀ (st : RunState C) (photo : String),
      st.config.GetString (env.slugMake (Base photo) ++ ".sha") = env.GetSHA1 photo →
      ∃ st1, photoStep env wm watermark env.UniqueID author (env.slugMake outPrefix) sizes st
          photo = .ok st1 ∧ st1.ap = st.ap) ∧
    (Resize env store inPath author outPrefix sizes watermark).status = .completed ∧
    (Resize env store inPath author outPrefix sizes watermark).trace = [] ∧
    ((Resize env store inPath author outPrefix sizes watermark).store.ReadInConfig
        "photos").GetStringSlice (env.slugMake outPrefix) =
      (store.ReadInConfig "photos").GetStringSlice (env.slugMake outPrefix) := by
  have hloop := photosLoop_all_skip env wm watermark env.UniqueID author
    (env.slugMake outPrefix) sizes photos
    ⟨store.ReadInConfig (env.slugMake outPrefix),
      (store.ReadInConfig "photos").GetStringSlice (env.slugMake outPrefix), []⟩ hall
  rw [Resize_of_loop env store inPath author outPrefix sizes watermark photos wm _ hscan hwm
    hloop]
  refine ⟨?_, rfl, rfl, ?_⟩
  · intro st photo hs
    exact ⟨st, photoStep_skip env wm watermark env.UniqueID author (env.slugMake outPrefix)
      sizes st photo hs, rfl⟩
  · simp [Store.ReadInConfig, configName, Store.WriteConfigAs]

/-- C4 (amended) on the recorded photo of `seenStore`. -/
theorem skipped_photo_not_indexed_witness :
    (∀ p ∈ ["in/photo.jpg"],
      (seenStore.ReadInConfig (slugAscii "blog")).GetString (slugAscii (Base p) ++ ".sha") =
        "h1") ∧
    seenRun.status = .completed ∧ seenRun.trace = [] ∧
    (seenRun.store.ReadInConfig "photos").GetStringSlice (slugAscii "blog") =
      (seenStore.ReadInConfig "photos").GetStringSlice (slugAscii "blog") :=
  ⟨by decide,
    (skipped_photo_not_indexed (demoEnv "run2" singleDir (fun _ => "h1")) seenStore "in" "jane"
      "blog" [2560, 1280, 640] true ["in/photo.jpg"] (flatImage 4 4 1) (by decide) rfl
      (by decide)).2⟩

/-- C4 fails as stated: the photo of `seenRun` has the recorded hash and is
skipped, and the list written for the category is still empty: none of its four
expected paths was appended. -/
theorem skipped_photo_indexed_counterexample :
    GetPhotos singleDir "in" = some ["in/photo.jpg"] ∧
    (seenStore.ReadInConfig "blog").GetString (slugAscii (Base "in/photo.jpg") ++ ".sha") =
      "h1" ∧
    seenRun.status = .completed ∧
    (seenStore.ReadInConfig "photos").GetStringSlice "blog" = [] ∧
    (seenRun.store.ReadInConfig "photos").GetStringSlice "blog" = [] := by
  decide

/-- The rounds of the loop change the document as recording the processed
photos, one after the other, does. -/
theorem foldl_configStep_processed {C : Type} (env : Env C) (unique : String)
    (photos : List String) (cfg : Doc) :
    photos.foldl (configStep env unique) cfg =
      (processed env unique photos cfg).foldl (recordPhoto env unique) cfg := by
  induction photos generalizing cfg with
  | nil => rfl
  | cons p rest ih =>
    by_cases hs : cfg.GetString (shaKey env p) = env.GetSHA1 p
    · simp only [List.foldl_cons, processed, hs, if_true, configStep]
      exact ih cfg
    · simp only [List.foldl_cons, processed, hs, if_false]
      rw [ih]
      simp [configStep, hs, recordPhoto]

/-- Only scanned photos are processed. -/
theorem processed_subset {C : Type} (env : Env C) (unique : String) (photos : List String)
    (cfg : Doc) : ∀ p ∈ processed env unique photos cfg, p ∈ photos := by
  induction photos generalizing cfg with
  | nil => simp [processed]
  | cons q rest ih =>
    intro p hp
    simp only [processed] at hp
    split at hp
    · exact List.mem_cons_of_mem _ (ih _ p hp)
    · rcases List.mem_cons.1 hp with rfl | hp
      · exact List.mem_cons_self _ _
      · exact List.mem_cons_of_mem _ (ih _ p hp)

/-- Recording photos leaves alone every string that is not the hash or the run
id of one of them. -/
theorem foldl_recordPhoto_frame {C : Type} (env : Env C) (unique : String)
    (done : List String) (cfg : Doc) (key : String)
    (h : ∀ p ∈ done, key ≠ shaKey env p ∧ key ≠ idKey env p) :
    (done.foldl (recordPhoto env unique) cfg).strings key = cfg.strings key := by
  induction done generalizing cfg with
  | nil => rfl
  | cons q rest ih =>
    rw [List.foldl_cons, ih _ (fun p hp => h p (List.mem_cons_of_mem _ hp))]
    obtain ⟨h1, h2⟩ := h q (List.mem_cons_self _ _)
    simp [recordPhoto, Doc.SetString, h1, h2]

/-- Recording photos leaves the arrays of the document alone. -/
theorem foldl_recordPhoto_lists {C : Type} (env : Env C) (unique : String)
    (done : List String) (cfg : Doc) :
    (done.foldl (recordPhoto env unique) cfg).lists = cfg.lists := by
  induction done generalizing cfg with
  | nil => rfl
  | cons q rest ih => rw [List.foldl_cons, ih]; rfl

/-- After recording a list of photos, the entry of a slug is that of the last
photo of the list with that slug. -/
theorem foldl_recordPhoto_last {C : Type} (env : Env C) (unique : String)
    (pre : List String) (p : String) (post : List String) (cfg : Doc)
    (h : ∀ q ∈ post, env.slugMake (Base q) ≠ env.slugMake (Base p)) :
    ((pre ++ p :: post).foldl (recordPhoto env unique) cfg).GetString (shaKey env p) =
        env.GetSHA1 p ∧
      ((pre ++ p :: post).foldl (recordPhoto env unique) cfg).GetString (idKey env p) =
        unique := by
  rw [List.foldl_append, List.foldl_cons]
  have hsha := foldl_recordPhoto_frame env unique post
    (recordPhoto env unique (pre.foldl (recordPhoto env unique) cfg) p) (shaKey env p)
    (fun q hq => ⟨(keys_ne env p q (fun e => h q hq e.symm)).1, shaKey_ne_idKey env p q⟩)
  have hid := foldl_recordPhoto_frame env unique post
    (recordPhoto env unique (pre.foldl (recordPhoto env unique) cfg) p) (idKey env p)
    (fun q hq => ⟨(shaKey_ne_idKey env q p).symm,
      (keys_ne env p q (fun e => h q hq e.symm)).2⟩)
  unfold Doc.GetString
  rw [hsha, hid]
  simp [recordPhoto, Doc.SetString, shaKey_ne_idKey env p p]

/-- A list with an element of some kind has a last element of that kind. -/
theorem exists_last_such (P : String → Prop) (l : List String) (h : ∃ r ∈ l, P r) :
    ∃ pre q post, l = pre ++ q :: post ∧ P q ∧ ∀ t ∈ post, ¬ P t := by
  induction l with
  | nil =>
    obtain ⟨r, hr, _⟩ := h
    exact absurd hr (List.not_mem_nil _)
  | cons x rest ih =>
    by_cases hex : ∃ t ∈ rest, P t
    · obtain ⟨pre, q, post, he, hq, hpost⟩ := ih hex
      exact ⟨x :: pre, q, post, by rw [he]; rfl, hq, hpost⟩
    · obtain ⟨r, hr, hP⟩ := h
      have hx : P x := by
        rcases List.mem_cons.1 hr with e | e
        · rw [← e]; exact hP
        · exact absurd ⟨r, e, hP⟩ hex
      exact ⟨[], x, rest, rfl, hx, fun t ht e => hex ⟨t, ht, e⟩⟩

/-- Every photo of a list has a last photo of the list with its slug. -/
theorem exists_last_with_slug {C : Type} (env : Env C) (done : List String) (p : String)
    (hp : p ∈ done) :
    ∃ pre q post, done = pre ++ q :: post ∧
      env.slugMake (Base q) = env.slugMake (Base p) ∧
      ∀ r ∈ post, env.slugMake (Base r) ≠ env.slugMake (Base p) :=
  exists_last_such (fun r => env.slugMake (Base r) = env.slugMake (Base p)) done ⟨p, hp, rfl⟩

/-- C5 (amended): a completed run for a category whose slug is not `photos`
writes as the category document the loaded one with, for each processed photo
in scan order, its hash set under `<slug>.sha` and the run id under
`<slug>.id`.  So a processed photo that no later processed photo shares its
slug with has its own hash and the run id stored; every entry a processed
photo has a slug for holds the hash of the last processed photo with that
slug and the run id; every other string and every array is as loaded; and a
scanned photo whose slug no other scanned photo shares has its hash stored,
with the run id when the hash read for it before the run differed. -/
theorem manifest_update_last_processed {C : Type} (env : Env C) (store : Store)
    (inPath author outPrefix : String) (sizes : List Int) (watermark : Bool)
    (photos : List String)
    (hscan : GetPhotos (env.lstat inPath) inPath = some photos)
    (hdone : (Resize env store inPath author outPrefix sizes watermark).status = .completed)
    (hcat : env.slugMake outPrefix ≠ "photos") :
    ∃ doc, (Resize env store inPath author outPrefix sizes watermark).store
        (env.slugMake outPrefix) = some doc ∧
      doc = (processed env env.UniqueID photos
        (store.ReadInConfig (env.slugMake outPrefix))).foldl (recordPhoto env env.UniqueID)
          (store.ReadInConfig (env.slugMake outPrefix)) ∧
      (∀ pre p post,
        processed env env.UniqueID photos (store.ReadInConfig (env.slugMake outPrefix)) =
          pre ++ p :: post →
        (∀ q ∈ post, env.slugMake (Base q) ≠ env.slugMake (Base p)) →
        doc.GetString (env.slugMake (Base p) ++ ".sha") = env.GetSHA1 p ∧
          doc.GetString (env.slugMake (Base p) ++ ".id") = env.UniqueID) ∧
      (∀ p ∈ processed env env.UniqueID photos (store.ReadInConfig (env.slugMake outPrefix)),
        ∃ pre q post,
          processed env env.UniqueID photos (store.ReadInConfig (env.slugMake outPrefix)) =
            pre ++ q :: post ∧
          env.slugMake (Base q) = env.slugMake (Base p) ∧
          (∀ r ∈ post, env.slugMake (Base r) ≠ env.slugMake (Base p)) ∧
          doc.GetString (env.slugMake (Base p) ++ ".sha") = env.GetSHA1 q ∧
          doc.GetString (env.slugMake (Base p) ++ ".id") = env.UniqueID) ∧
      (∀ key,
        (∀ p ∈ processed env env.UniqueID photos (store.ReadInConfig (env.slugMake outPrefix)),
          key ≠ env.slugMake (Base p) ++ ".sha" ∧ key ≠ env.slugMake (Base p) ++ ".id") →
        doc.strings key = (store.ReadInConfig (env.slugMake outPrefix)).strings key) ∧
      doc.lists = (store.ReadInConfig (env.slugMake outPrefix)).lists ∧
      (∀ p ∈ photos,
        (∀ q ∈ photos, env.slugMake (Base q) = env.slugMake (Base p) → q = p) →
        doc.GetString (env.slugMake (Base p) ++ ".sha") = env.GetSHA1 p ∧
          ((store.ReadInConfig (env.slugMake outPrefix)).GetString
              (env.slugMake (Base p) ++ ".sha") ≠ env.GetSHA1 p →
            doc.GetString (env.slugMake (Base p) ++ ".id") = env.UniqueID)) := by
  obtain ⟨photos1, wm1, st1, hscan1, hwm1, hloop1⟩ :=
    Resize_completed_inv env store inPath author outPrefix sizes watermark hdone
  have hp1 : photos1 = photos := by
    rw [hscan] at hscan1; exact (Option.some.inj hscan1).symm
  subst hp1
  rw [Resize_of_loop env store inPath author outPrefix sizes watermark photos1 wm1 st1 hscan1
    hwm1 hloop1]
  have hcfg := photosLoop_config _ _ _ _ _ _ _ _ _ _ hloop1
  simp only at hcfg
  have hdoc := foldl_configStep_processed env env.UniqueID photos1
    (store.ReadInConfig (env.slugMake outPrefix))
  refine ⟨st1.config, by simp [Store.WriteConfigAs, hcat], by rw [hcfg, hdoc], ?_, ?_, ?_, ?_, ?_⟩
  · intro pre p post hdec hpost
    rw [hcfg, hdoc, hdec]
    exact foldl_recordPhoto_last env env.UniqueID pre p post _ hpost
  · intro p hp
    obtain ⟨pre, q, post, hdec, hq, hpost⟩ := exists_last_with_slug env _ p hp
    refine ⟨pre, q, post, hdec, hq, hpost, ?_⟩
    have hlast := foldl_recordPhoto_last env env.UniqueID pre q post
      (store.ReadInConfig (env.slugMake outPrefix))
      (fun r hr => by rw [hq]; exact hpost r hr)
    rw [hcfg, hdoc, hdec]
    unfold shaKey idKey at hlast
    rw [hq] at hlast
    exact hlast
  · intro key hkey
    rw [hcfg, hdoc]
    exact foldl_recordPhoto_frame env env.UniqueID _ _ key hkey
  · rw [hcfg, hdoc]
    exact foldl_recordPhoto_lists env env.UniqueID _ _
  · intro p hp huniq
    rw [hcfg]
    exact foldl_configStep_entry env env.UniqueID p photos1 _ hp huniq

/-- C5 (amended) on the first run over `pairDir`: both photos are processed,
and the document written for `blog` holds the hash of `a.jpg` and the run
id. -/
theorem manifest_update_last_processed_witness :
    (Resize (demoEnv "run1" pairDir (pairSha "ha")) emptyStore "in" "jane" "blog"
      [2560, 1280, 640] true).status = .completed ∧
    processed (demoEnv "run1" pairDir (pairSha "ha")) "run1" ["in/a.jpg", "in/b.png"]
      (emptyStore.ReadInConfig (slugAscii "blog")) = [] ++ "in/a.jpg" :: ["in/b.png"] ∧
    ∃ doc, (Resize (demoEnv "run1" pairDir (pairSha "ha")) emptyStore "in" "jane" "blog"
        [2560, 1280, 640] true).store (slugAscii "blog") = some doc ∧
      doc.GetString (slugAscii (Base "in/a.jpg") ++ ".sha") = pairSha "ha" "in/a.jpg" ∧
      doc.GetString (slugAscii (Base "in/a.jpg") ++ ".id") = "run1" := by
  obtain ⟨doc, hdoc, _, hlast, _⟩ :=
    manifest_update_last_processed (demoEnv "run1" pairDir (pairSha "ha")) emptyStore "in"
      "jane" "blog" [2560, 1280, 640] true ["in/a.jpg", "in/b.png"] (by decide) (by decide)
      (by decide)
  exact ⟨by decide, by decide, doc, hdoc, hlast [] "in/a.jpg" ["in/b.png"] (by decide) (by decide)⟩

/-- C5 fails as stated: `in/a/photo.jpg` of `twinDir` is processed by the first
run (nothing is stored for it and its hash is `h1`), yet after the run the
document maps its slug to `h2`, the hash of `in/b/photo.jpg`, the photo
processed last with that slug.  And for the category `photos` the document
written is replaced by the path lists, so that no hash is stored at all. -/
theorem manifest_update_counterexample :
    GetPhotos twinDir "in" = some ["in/a/photo.jpg", "in/b/photo.jpg"] ∧
    twinSha "in/a/photo.jpg" = "h1" ∧ twinSha "in/b/photo.jpg" = "h2" ∧
    (emptyStore.ReadInConfig "blog").GetString (slugAscii (Base "in/a/photo.jpg") ++ ".sha") =
      "" ∧
    twinFirst.status = .completed ∧
    (twinFirst.store.ReadInConfig "blog").GetString
      (slugAscii (Base "in/a/photo.jpg") ++ ".sha") = "h2" ∧
    albumFirst.status = .completed ∧
    (albumFirst.store.ReadInConfig "photos").GetString
      (slugAscii (Base "in/a.jpg") ++ ".sha") = "" := by
  decide

/-- C6 (amended): a run for a category leaves the path list stored under every
category with a different slug as it was, and leaves the document of such a
category as it was unless that slug is `photos`, the name of the document that
holds the path lists. -/
theorem category_isolation_on_distinct_slugs {C : Type} (env : Env C) (store : Store)
    (inPath author outPrefix other : String) (sizes : List Int) (watermark : Bool)
    (hother : env.slugMake other ≠ env.slugMake outPrefix) :
    ((Resize env store inPath author outPrefix sizes watermark).store.ReadInConfig
        "photos").GetStringSlice (env.slugMake other) =
      (store.ReadInConfig "photos").GetStringSlice (env.slugMake other) ∧
    (env.slugMake other ≠ "photos" →
      (Resize env store inPath author outPrefix sizes watermark).store (env.slugMake other) =
        store (env.slugMake other)) := by
  rcases Resize_store_cases env store inPath author outPrefix sizes watermark with h | ⟨cfg, ap, h⟩
  · rw [h]; exact ⟨rfl, fun _ => rfl⟩
  · rw [h]
    refine ⟨?_, ?_⟩
    · simp [Store.ReadInConfig, configName, Store.WriteConfigAs, hother]
    · intro hne
      simp [Store.WriteConfigAs, hother, hne]

/-- C6 (amended) for a run of `blog` seen from `portfolio`. -/
theorem category_isolation_on_distinct_slugs_witness :
    slugAscii "portfolio" ≠ slugAscii "blog" ∧
    (blogRun.store.ReadInConfig "photos").GetStringSlice (slugAscii "portfolio") =
      (emptyStore.ReadInConfig "photos").GetStringSlice (slugAscii "portfolio") ∧
    blogRun.store (slugAscii "portfolio") = emptyStore (slugAscii "portfolio") :=
  ⟨by decide,
    (category_isolation_on_distinct_slugs (demoEnv "run1" singleDir (fun _ => "h1")) emptyStore
      "in" "jane" "blog" "portfolio" [640] false (by decide)).1,
    (category_isolation_on_distinct_slugs (demoEnv "run1" singleDir (fun _ => "h1")) emptyStore
      "in" "jane" "blog" "portfolio" [640] false (by decide)).2 (by decide)⟩

/-- C6 fails as stated: the names `Blog` and `blog` differ and have the same
slug, so a run for `Blog` writes the document and the path list of `blog`; and
the document of a category named `photos` is the file of the path lists, which
a run for `blog` rewrites. -/
theorem category_isolation_counterexample :
    "Blog" ≠ "blog" ∧
    (emptyStore.ReadInConfig (slugAscii "blog")).GetString "photo-jpg.sha" = "" ∧
    (capitalRun.store.ReadInConfig (slugAscii "blog")).GetString "photo-jpg.sha" = "h1" ∧
    (emptyStore.ReadInConfig "photos").GetStringSlice (slugAscii "blog") = [] ∧
    (capitalRun.store.ReadInConfig "photos").GetStringSlice (slugAscii "blog") =
      [".moul/photos/run1/blog/640/photo-by-jane.jpg",
        ".moul/photos/run1/blog/sqip/photo-by-jane.svg"] ∧
    "blog" ≠ "photos" ∧
    (emptyStore.ReadInConfig (slugAscii "photos")).GetStringSlice "blog" = [] ∧
    (blogRun.store.ReadInConfig (slugAscii "photos")).GetStringSlice "blog" =
      [".moul/photos/run1/blog/640/photo-by-jane.jpg",
        ".moul/photos/run1/blog/sqip/photo-by-jane.svg"] := by
  decide

/-- C10 on a 4 by 4 derivative and a 2 by 1 watermark: the mark starts at
`(0, 3)`, the pixel `(1, 3)` takes the colour of the mark and `(2, 3)` keeps
its own. -/
theorem addWatermark_placement_witness :
    (flatImage 4 4 1).Bounds = ⟨ZP, ⟨4, 4⟩⟩ ∧ (flatImage 2 1 7).Bounds = ⟨ZP, ⟨2, 1⟩⟩ ∧
    (watermarkRect (flatImage 4 4 1) (flatImage 2 1 7)).Min = ⟨0, 4 - 1⟩ ∧
    (addWatermark (fun top _ => top) (flatImage 4 4 1) (flatImage 2 1 7)).At 2 3 = 1 ∧
    (addWatermark (fun top _ => top) (flatImage 4 4 1) (flatImage 2 1 7)).At 1 3 = 7 :=
  ⟨rfl, rfl,
    (addWatermark_placement (fun top _ => top) (flatImage 4 4 1) (flatImage 2 1 7) 4 4 2 1
      rfl rfl).1,
    (addWatermark_placement (fun top _ => top) (flatImage 4 4 1) (flatImage 2 1 7) 4 4 2 1
      rfl rfl).2.2.1 2 3 (by decide),
    (addWatermark_placement (fun top _ => top) (flatImage 4 4 1) (flatImage 2 1 7) 4 4 2 1
      rfl rfl).2.2.2 1 3 (by decide) (by decide) (by decide) (by decide) (by decide)
      (by decide)⟩

/-! ## `filepath.Clean` and `filepath.Join` -/

/-- A path always has at least one element. -/
theorem splitSlash_ne_nil (l : List Char) : splitSlash l ≠ [] := by
  cases l with
  | nil => simp [splitSlash]
  | cons c cs =>
    simp only [splitSlash]
    split
    · simp
    · split <;> simp

/-- One step of `splitSlash`, the rest of the path being split already. -/
theorem splitSlash_cons (c : Char) (cs x : List Char) (t : List (List Char))
    (h : splitSlash cs = x :: t) :
    splitSlash (c :: cs) = if c = '/' then [] :: x :: t else (c :: x) :: t := by
  simp only [splitSlash, h]

/-- The elements of two paths put together with a slash are the elements of the first
followed by the elements of the second. -/
theorem splitSlash_append (a b : List Char) :
    splitSlash (a ++ '/' :: b) = splitSlash a ++ splitSlash b := by
  induction a with
  | nil =>
    cases h : splitSlash b with
    | nil => exact absurd h (splitSlash_ne_nil b)
    | cons x t =>
      rw [List.nil_append, splitSlash_cons _ _ _ _ h]
      simp [splitSlash]
  | cons c a ih =>
    cases h : splitSlash a with
    | nil => exact absurd h (splitSlash_ne_nil a)
    | cons x t =>
      have h2 : splitSlash (a ++ '/' :: b) = x :: (t ++ splitSlash b) := by
        rw [ih, h]; rfl
      rw [List.cons_append, splitSlash_cons _ _ _ _ h2, splitSlash_cons _ _ _ _ h]
      split <;> simp

/-- A text without a slash is its own single element. -/
theorem splitSlash_plain (a : List Char) (h : '/' ∉ a) : splitSlash a = [a] := by
  induction a with
  | nil => simp [splitSlash]
  | cons c a ih =>
    have hc : c ≠ '/' := fun e => h (by simp [e])
    have ha : '/' ∉ a := fun e => h (List.mem_cons_of_mem _ e)
    simp [splitSlash, ih ha, hc]

/-- No element of a path holds a slash. -/
theorem mem_splitSlash (l : List Char) : ∀ e ∈ splitSlash l, '/' ∉ e := by
  induction l with
  | nil => simp [splitSlash]
  | cons c cs ih =>
    intro e he
    cases h : splitSlash cs with
    | nil => exact absurd h (splitSlash_ne_nil cs)
    | cons x t =>
      rw [splitSlash_cons _ _ _ _ h] at he
      rw [h] at ih
      split at he
      · rcases List.mem_cons.1 he with rfl | he'
        · simp
        · exact ih e he'
      · rename_i hc
        rcases List.mem_cons.1 he with rfl | he'
        · intro hm
          rcases List.mem_cons.1 hm with e1 | e1
          · exact hc e1.symm
          · exact ih x (List.mem_cons_self _ _) e1
        · exact ih e (List.mem_cons_of_mem _ he')

/-- The characters built by the loop of `String.intercalate`. -/
theorem intercalate_go_data (acc s : String) (l : List String) :
    (String.intercalate.go acc s l).data =
      acc.data ++ l.flatMap (fun x => s.data ++ x.data) := by
  induction l generalizing acc with
  | nil => simp [String.intercalate.go]
  | cons a l ih =>
    simp [String.intercalate.go, ih, String.data_append, List.flatMap_cons]

/-- The characters of elements put together with slashes. -/
theorem intercalate_cons_data (a : String) (l : List String) :
    ("/".intercalate (a :: l)).data = a.data ++ l.flatMap (fun x => '/' :: x.data) := by
  simp [String.intercalate, intercalate_go_data]

/-- Putting one more element at the end adds a slash and the element. -/
theorem intercalate_snoc (a : String) (l : List String) (y : String) :
    "/".intercalate (a :: l ++ [y]) = "/".intercalate (a :: l) ++ "/" ++ y := by
  apply String.ext
  simp [intercalate_cons_data, String.data_append, List.flatMap_append]

/-- `splitSlash_append` on strings. -/
theorem elements_append (s y : String) :
    elements (s ++ "/" ++ y) = elements s ++ elements y := by
  simp [elements, String.data_append, splitSlash_append]

/-- `filepath.Clean` of a non-empty path: the text of what the fold over its elements
keeps. -/
theorem Clean_eq (path : String) (h : path ≠ "") :
    Clean path = render (decide (path.data.head? = some '/'))
      ((elements path).foldl (cleanStep (decide (path.data.head? = some '/'))) []) := by
  simp only [Clean, if_neg h, render, elements]
  by_cases hr : path.data.head? = some '/' <;> simp [hr]

/-- Every element of a kept stack is non-empty, not `.` and free of slashes. -/
theorem Kept_mem (r : Bool) (S : List String) (h : Kept r S) :
    ∀ x ∈ S, x ≠ "" ∧ x ≠ "." ∧ '/' ∉ x.data := by
  induction S with
  | nil => simp
  | cons a S ih =>
    intro x hx
    rcases List.mem_cons.1 hx with rfl | hx
    · exact ⟨h.1, h.2.1, h.2.2.1⟩
    · exact ih h.2.2.2.2 x hx

/-- One step of `filepath.Clean` keeps the stack well formed. -/
theorem Kept_cleanStep (r : Bool) (S : List String) (c : String) (hS : Kept r S)
    (hc : '/' ∉ c.data) : Kept r (cleanStep r S c) := by
  unfold cleanStep
  split
  · exact hS
  · rename_i h1
    have hne : c ≠ "" := fun e => h1 (Or.inl e)
    have hnd : c ≠ "." := fun e => h1 (Or.inr e)
    split
    · rename_i h2
      cases S with
      | nil =>
        cases r <;> simp [Kept]
      | cons top rest =>
        simp only
        split
        · rename_i h3
          split
          · exact hS
          · rename_i h4
            refine ⟨by decide, by decide, by decide, fun _ => ⟨by simpa using h4, Or.inr ?_⟩, hS⟩
            simp [h3]
        · exact hS.2.2.2.2
    · rename_i h2
      exact ⟨hne, hnd, hc, fun e => absurd e h2, hS⟩

/-- The fold of `filepath.Clean` keeps the stack well formed. -/
theorem Kept_foldl (r : Bool) (cs : List String) (S : List String) (hS : Kept r S)
    (hc : ∀ c ∈ cs, '/' ∉ c.data) : Kept r (cs.foldl (cleanStep r) S) := by
  induction cs generalizing S with
  | nil => exact hS
  | cons c cs ih =>
    exact ih _ (Kept_cleanStep r S c hS (hc c (List.mem_cons_self _ _)))
      (fun x hx => hc x (List.mem_cons_of_mem _ hx))

/-- No element of a path holds a slash, on strings. -/
theorem elements_plain (path : String) : ∀ c ∈ elements path, '/' ∉ c.data := by
  intro c hc
  simp only [elements, List.mem_map] at hc
  obtain ⟨l, hl, rfl⟩ := hc
  exact mem_splitSlash _ l hl

/-- The stack `filepath.Clean` ends with is well formed. -/
theorem Kept_elements (r : Bool) (path : String) :
    Kept r ((elements path).foldl (cleanStep r) []) :=
  Kept_foldl r _ [] trivial (elements_plain path)

/-- Cleaning the elements of a well formed stack, bottom first, gives the stack
again. -/
theorem foldl_reverse_Kept (r : Bool) (S : List String) (h : Kept r S) :
    S.reverse.foldl (cleanStep r) [] = S := by
  induction S with
  | nil => rfl
  | cons x S ih =>
    rw [List.reverse_cons, List.foldl_append, ih h.2.2.2.2]
    obtain ⟨h1, h2, _, h4, _⟩ := h
    simp only [List.foldl_cons, List.foldl_nil, cleanStep, h1, h2, or_self, if_false]
    by_cases hx : x = ".."
    · obtain ⟨hr, hb⟩ := h4 hx
      subst hx
      cases S with
      | nil => simp [hr]
      | cons top rest =>
        rcases hb with hb | hb
        · exact absurd hb (by simp)
        · simp only [List.head?_cons, Option.some.injEq] at hb
          simp [hb, hr]
    · simp [hx]

/-- Slash-free elements put together with slashes split into themselves. -/
theorem splitSlash_intercalate (a : String) (l : List String)
    (h : ∀ x ∈ a :: l, '/' ∉ x.data) :
    splitSlash (a.data ++ l.flatMap (fun x => '/' :: x.data)) = a.data :: l.map String.data := by
  induction l generalizing a with
  | nil => simpa using splitSlash_plain a.data (h a (List.mem_cons_self _ _))
  | cons b l ih =>
    rw [List.flatMap_cons, List.cons_append, splitSlash_append,
      splitSlash_plain a.data (h a (List.mem_cons_self _ _)),
      ih b (fun x hx => h x (List.mem_cons_of_mem _ hx))]
    rfl

/-- Slash-free elements put together with slashes split into themselves, on
strings. -/
theorem elements_intercalate (L : List String) (hL : L ≠ [])
    (h : ∀ x ∈ L, '/' ∉ x.data) : elements ("/".intercalate L) = L := by
  cases L with
  | nil => exact absurd rfl hL
  | cons a l =>
    simp only [elements, intercalate_cons_data, splitSlash_intercalate a l h, List.map_cons,
      List.map_map]
    congr 1
    exact List.map_id'' (fun x => rfl) l

/-- Elements put together are not the empty text when the first is not. -/
theorem intercalate_ne_empty (a : String) (l : List String) (ha : a ≠ "") :
    "/".intercalate (a :: l) ≠ "" := by
  intro h
  have := congrArg String.data h
  rw [intercalate_cons_data] at this
  have h2 : a.data ++ l.flatMap (fun x => '/' :: x.data) = [] := this
  exact ha (String.ext (List.append_eq_nil.1 h2).1)

/-- Elements put together start as the first of them starts. -/
theorem head_intercalate (a : String) (l : List String) (ha : a ≠ "") :
    ("/".intercalate (a :: l)).data.head? = a.data.head? := by
  rw [intercalate_cons_data]
  cases h : a.data with
  | nil => exact absurd (String.ext h) ha
  | cons c cs => rfl

/-- `filepath.Clean` never ends with the empty text. -/
theorem render_ne_empty (r : Bool) (S : List String) : render r S ≠ "" := by
  unfold render
  intro h
  split at h
  · have := congrArg String.data h
    simp [String.data_append] at this
  · split at h
    · exact absurd h (by decide)
    · rename_i h2
      exact h2 h

/-- `filepath.Clean` is idempotent on its own results: the text of a well formed
stack cleans to that stack, and is rooted exactly when the path was. -/
theorem elements_render (r : Bool) (S : List String) (h : Kept r S) :
    (elements (render r S)).foldl (cleanStep r) [] = S ∧
      decide ((render r S).data.head? = some '/') = r := by
  have hm := Kept_mem r S h
  cases S with
  | nil =>
    cases r
    · exact ⟨by decide, by decide⟩
    · exact ⟨by decide, by decide⟩
  | cons x S =>
    have hrev : (x :: S).reverse ≠ [] := by simp
    have hpl : ∀ y ∈ (x :: S).reverse, '/' ∉ y.data := fun y hy =>
      (hm y (List.mem_reverse.1 hy)).2.2
    have hel := elements_intercalate _ hrev hpl
    obtain ⟨a, l, hal⟩ : ∃ a l, (x :: S).reverse = a :: l := by
      cases hr : (x :: S).reverse with
      | nil => exact absurd hr hrev
      | cons a l => exact ⟨a, l, rfl⟩
    have ha : a ≠ "" := (hm a (List.mem_reverse.1 (by rw [hal]; exact List.mem_cons_self _ _))).1
    have hasl : '/' ∉ a.data :=
      (hm a (List.mem_reverse.1 (by rw [hal]; exact List.mem_cons_self _ _))).2.2
    have hne : "/".intercalate (x :: S).reverse ≠ "" := by
      rw [hal]; exact intercalate_ne_empty a l ha
    have hhead : ("/".intercalate (x :: S).reverse).data.head? ≠ some '/' := by
      rw [hal, head_intercalate a l ha]
      cases hd : a.data with
      | nil => simp
      | cons c cs =>
        intro e
        simp only [List.head?_cons, Option.some.injEq] at e
        exact hasl (by rw [hd, e]; exact List.mem_cons_self _ _)
    cases r with
    | false =>
      simp only [render, Bool.false_eq_true, if_false, if_neg hne, hel]
      exact ⟨foldl_reverse_Kept false _ h, by simpa using hhead⟩
    | true =>
      simp only [render, if_true]
      have he : elements ("/" ++ "/".intercalate (x :: S).reverse) =
          "" :: (x :: S).reverse := by
        have := elements_append "" ("/".intercalate (x :: S).reverse)
        simp only [String.empty_append] at this
        rw [this, hel]
        rfl
      rw [he]
      refine ⟨?_, by simp [String.data_append]⟩
      rw [List.foldl_cons]
      exact foldl_reverse_Kept true _ h

/-- A non-empty path followed by more starts as it started. -/
theorem head_append_slash (s y : String) (hs : s ≠ "") :
    (s ++ "/" ++ y).data.head? = s.data.head? := by
  simp only [String.data_append]
  cases h : s.data with
  | nil => exact absurd (String.ext h) hs
  | cons c cs => rfl

/-- A path with a slash in it is not empty. -/
theorem append_slash_ne_empty (s y : String) : s ++ "/" ++ y ≠ "" := by
  intro h
  have := congrArg String.data h
  simp [String.data_append] at this

/-- `filepath.Clean` never returns the empty text. -/
theorem Clean_ne_empty (s : String) : Clean s ≠ "" := by
  by_cases h : s = ""
  · subst h; decide
  · rw [Clean_eq s h]; exact render_ne_empty _ _

/-- Cleaning the first part of a path beforehand does not change the cleaned
path. -/
theorem Clean_Clean_append (s y : String) (hs : s ≠ "") :
    Clean (Clean s ++ "/" ++ y) = Clean (s ++ "/" ++ y) := by
  have hk := Kept_elements (decide (s.data.head? = some '/')) s
  obtain ⟨h1, h2⟩ := elements_render _ _ hk
  rw [Clean_eq _ (append_slash_ne_empty _ _), Clean_eq _ (append_slash_ne_empty _ _),
    head_append_slash _ _ (Clean_ne_empty s), head_append_slash _ _ hs, elements_append,
    elements_append, List.foldl_append, List.foldl_append]
  rw [Clean_eq s hs, h2, h1]

/-- `filepath.Join` with a non-empty first element cleans the elements put together. -/
theorem Join_cons (a : String) (l : List String) (ha : a ≠ "") :
    Join (a :: l) = Clean ("/".intercalate (a :: l)) := by
  simp [Join, List.dropWhile, ha]

/-- Joining an element to a joined path is joining everything at once. -/
theorem Join_Join (a : String) (l : List String) (y : String) (ha : a ≠ "") :
    Join [Join (a :: l), y] = Join (a :: l ++ [y]) := by
  rw [Join_cons a l ha, Join_cons _ _ (Clean_ne_empty _)]
  have h2 : a :: l ++ [y] = a :: (l ++ [y]) := rfl
  rw [h2, Join_cons a _ ha, ← h2, intercalate_snoc a l y]
  have h3 := intercalate_snoc (Clean ("/".intercalate (a :: l))) [] y
  simp only [List.nil_append, String.intercalate, String.intercalate.go] at h3
  simp only [String.intercalate, String.intercalate.go]
  exact Clean_Clean_append _ y (intercalate_ne_empty a l ha)

/-- Putting one more element in front adds the element and a slash. -/
theorem intercalate_cons_cons (x a : String) (l : List String) :
    "/".intercalate (x :: a :: l) = x ++ "/" ++ "/".intercalate (a :: l) := by
  apply String.ext
  simp [intercalate_cons_data, String.data_append, List.flatMap_cons]

/-- A leading `.` does not change a joined relative path. -/
theorem Join_dot (a : String) (l : List String) (ha : a ≠ "")
    (hhead : a.data.head? ≠ some '/') : Join ("." :: a :: l) = Join (a :: l) := by
  rw [Join_cons "." _ (by decide), Join_cons a l ha, intercalate_cons_cons,
    Clean_eq _ (append_slash_ne_empty _ _), Clean_eq _ (intercalate_ne_empty a l ha),
    head_append_slash _ _ (by decide), elements_append, List.foldl_append,
    head_intercalate a l ha]
  have h1 : decide (a.data.head? = some '/') = false := by simpa using hhead
  have h2 : decide (".".data.head? = some '/') = false := by decide
  rw [h1, h2]
  rfl

/-- A plain element is pushed on the stack. -/
theorem cleanStep_plain (r : Bool) (S : List String) (x : String) (hx : Plain x) :
    cleanStep r S x = x :: S := by
  obtain ⟨h1, h2, h3, _⟩ := hx
  simp [cleanStep, h1, h2, h3]

/-- Plain elements are all pushed on the stack. -/
theorem foldl_cleanStep_plain (r : Bool) (L S : List String) (h : ∀ x ∈ L, Plain x) :
    L.foldl (cleanStep r) S = L.reverse ++ S := by
  induction L generalizing S with
  | nil => rfl
  | cons x L ih =>
    rw [List.foldl_cons, cleanStep_plain r S x (h x (List.mem_cons_self _ _)),
      ih _ (fun y hy => h y (List.mem_cons_of_mem _ hy))]
    simp

/-- A plain element does not start with a slash. -/
theorem head_plain (a : String) (h : Plain a) : a.data.head? ≠ some '/' := by
  intro e
  cases hd : a.data with
  | nil => rw [hd] at e; simp at e
  | cons c cs =>
    rw [hd] at e
    simp only [List.head?_cons, Option.some.injEq] at e
    exact h.2.2.2 (by rw [hd, e]; exact List.mem_cons_self _ _)

/-- `filepath.Join` of plain elements is their text with slashes between. -/
theorem Join_plain (a : String) (l : List String) (h : ∀ x ∈ a :: l, Plain x) :
    Join (a :: l) = "/".intercalate (a :: l) := by
  have ha := h a (List.mem_cons_self _ _)
  rw [Join_cons a l ha.1, Clean_eq _ (intercalate_ne_empty a l ha.1), head_intercalate a l ha.1,
    elements_intercalate _ (by simp) (fun x hx => (h x hx).2.2.2),
    foldl_cleanStep_plain _ _ _ h]
  have h1 : decide (a.data.head? = some '/') = false := by simpa using head_plain a ha
  rw [h1]
  simp [render, intercalate_ne_empty a l ha.1]

/-- A joined path whose last two elements are plain ends in them. -/
theorem Join_ends (e : String) (l : List String) (a f : String) (he : e ≠ "")
    (ha : Plain a) (hf : Plain f) :
    ∃ p, Join (e :: (l ++ [a, f])) = p ++ a ++ "/" ++ f := by
  have hsplit : e :: (l ++ [a, f]) = (e :: (l ++ [a])) ++ [f] := by simp
  have hsplit2 : e :: (l ++ [a]) = e :: l ++ [a] := rfl
  have hel : ∀ x, Plain x → elements x = [x] := by
    intro x hx
    have := elements_intercalate [x] (by simp) (by simpa using hx.2.2.2)
    simpa [String.intercalate, String.intercalate.go] using this
  rw [Join_cons e _ he]
  have hs : "/".intercalate (e :: (l ++ [a, f])) =
      "/".intercalate (e :: l) ++ "/" ++ a ++ "/" ++ f := by
    rw [hsplit, intercalate_snoc, hsplit2, intercalate_snoc]
  rw [hs, Clean_eq _ (append_slash_ne_empty _ _), elements_append, elements_append,
    List.foldl_append, List.foldl_append, hel a ha, hel f hf]
  simp only [List.foldl_cons, List.foldl_nil]
  rw [cleanStep_plain _ _ a ha, cleanStep_plain _ _ f hf]
  generalize List.foldl (cleanStep _) [] (elements ("/".intercalate (e :: l))) = S
  generalize decide (_ = some '/') = r
  have hI : ∃ q, "/".intercalate (f :: a :: S).reverse = q ++ a ++ "/" ++ f := by
    cases hrev : S.reverse with
    | nil =>
      refine ⟨"", ?_⟩
      simp [hrev, String.intercalate, String.intercalate.go]
    | cons b t =>
      refine ⟨"/".intercalate (b :: t) ++ "/", ?_⟩
      have h3 : (f :: a :: S).reverse = (b :: (t ++ [a])) ++ [f] := by simp [hrev]
      have h4 : b :: (t ++ [a]) = b :: t ++ [a] := rfl
      rw [h3, intercalate_snoc, h4, intercalate_snoc]
  obtain ⟨q, hq⟩ := hI
  have hne : "/".intercalate (f :: a :: S).reverse ≠ "" := by
    rw [hq]; exact append_slash_ne_empty _ _
  cases r with
  | true =>
    refine ⟨"/" ++ q, ?_⟩
    simp only [render, if_true, hq, String.append_assoc]
  | false =>
    refine ⟨q, ?_⟩
    simp only [render, Bool.false_eq_true, if_false, if_neg hne]
    exact hq

/-- A decimal digit is neither a slash nor a dot. -/
theorem digitChar_ok (k : Nat) (h : k < 10) :
    Nat.digitChar k ≠ '/' ∧ Nat.digitChar k ≠ '.' := by
  interval_cases k <;> decide

/-- The digits of a number hold neither a slash nor a dot. -/
theorem toDigitsCore_chars (fuel n : Nat) (ds : List Char)
    (hds : ∀ c ∈ ds, c ≠ '/' ∧ c ≠ '.') :
    ∀ c ∈ Nat.toDigitsCore 10 fuel n ds, c ≠ '/' ∧ c ≠ '.' := by
  induction fuel generalizing n ds with
  | zero => simpa [Nat.toDigitsCore] using hds
  | succ fuel ih =>
    have hd : ∀ c ∈ Nat.digitChar (n % 10) :: ds, c ≠ '/' ∧ c ≠ '.' := by
      intro c hc
      rcases List.mem_cons.1 hc with rfl | hc
      · exact digitChar_ok _ (Nat.mod_lt _ (by decide))
      · exact hds c hc
    simp only [Nat.toDigitsCore]
    split
    · exact hd
    · exact ih _ _ hd

/-- A number has at least one digit. -/
theorem toDigitsCore_ne_nil (fuel n : Nat) (ds : List Char) (h : ds ≠ [] ∨ 0 < fuel) :
    Nat.toDigitsCore 10 fuel n ds ≠ [] := by
  induction fuel generalizing n ds with
  | zero =>
    rcases h with h | h
    · simpa [Nat.toDigitsCore] using h
    · exact absurd h (by decide)
  | succ fuel ih =>
    simp only [Nat.toDigitsCore]
    split
    · simp
    · exact ih _ _ (Or.inl (by simp))

/-- The decimal text of an integer is a plain path element. -/
theorem Itoa_plain (n : Int) : Plain (Itoa n) := by
  have hnat : ∀ m : Nat, (toString m).data ≠ [] ∧ ∀ c ∈ (toString m).data, c ≠ '/' ∧ c ≠ '.' := by
    intro m
    show (Nat.repr m).data ≠ [] ∧ ∀ c ∈ (Nat.repr m).data, c ≠ '/' ∧ c ≠ '.'
    simp only [Nat.repr, Nat.toDigits, List.asString]
    exact ⟨toDigitsCore_ne_nil _ _ _ (Or.inr (Nat.succ_pos _)),
      toDigitsCore_chars _ _ _ (by simp)⟩
  have hall : (Itoa n).data ≠ [] ∧ ∀ c ∈ (Itoa n).data, c ≠ '/' ∧ c ≠ '.' := by
    cases n with
    | ofNat m => exact hnat m
    | negSucc m =>
      show ("-" ++ toString (Nat.succ m)).data ≠ [] ∧
        ∀ c ∈ ("-" ++ toString (Nat.succ m)).data, c ≠ '/' ∧ c ≠ '.'
      simp only [String.data_append]
      refine ⟨by simp, ?_⟩
      intro c hc
      rcases List.mem_append.1 hc with h | h
      · simp only [List.mem_singleton] at h
        subst h; decide
      · exact (hnat _).2 c h
  refine ⟨?_, ?_, ?_, ?_⟩
  · intro e; exact hall.1 (by rw [e])
  · intro e
    have := hall.2 '.' (by rw [e]; decide)
    exact this.2 rfl
  · intro e
    have := hall.2 '.' (by rw [e]; decide)
    exact this.2 rfl
  · intro e
    exact (hall.2 '/' e).1 rfl

/-- The loop of `filepath.Ext` returns an end of what it walked over. -/
theorem extScan_suffix (l acc : List Char) : extScan l acc <:+ l.reverse ++ acc := by
  induction l generalizing acc with
  | nil => simp [extScan]
  | cons c rest ih =>
    simp only [extScan, List.reverse_cons, List.append_assoc, List.singleton_append]
    split
    · exact List.nil_suffix
    · split
      · rename_i h
        subst h
        exact List.suffix_append _ _
      · exact ih _

/-- `filepath.Ext` returns an end of the path, and `strings.TrimSuffix` by it
leaves the rest: the two put together are the path again. -/
theorem TrimSuffix_Ext (fn : String) : TrimSuffix fn (Ext fn) ++ Ext fn = fn := by
  have hsuf : (Ext fn).data <:+ fn.data := by
    have := extScan_suffix fn.data.reverse []
    simpa [Ext] using this
  unfold TrimSuffix
  rw [if_pos (by simpa using hsuf)]
  obtain ⟨t, ht⟩ := hsuf
  apply String.ext
  simp only [String.data_append]
  rw [← ht]
  simp

/-! ## Paths, the path list and the watermark file -/

/-- The path appended to the list for a derivative is the path `saveImage`
writes it to. -/
theorem entry_eq_saved_path (unique cat name : String) (size : Int) :
    Join [".", ".moul", "photos", unique, cat, Itoa size, name ++ ".jpg"] =
      Join [getFilePath unique cat size, name ++ ".jpg"] := by
  rw [Join_dot ".moul" _ (by decide) (by decide), getFilePath,
    Join_Join ".moul" ["photos", unique, cat, Itoa size] (name ++ ".jpg") (by decide)]
  rfl

/-- A file name with an extension of three letters is a plain element when
the name has no slash. -/
theorem Plain_with_ext (name ext : String) (hn : '/' ∉ name.data) (he : '/' ∉ ext.data)
    (hlen : 3 ≤ ext.data.length) : Plain (name ++ ext) := by
  have hl : 3 ≤ (name ++ ext).data.length := by
    simp only [String.data_append, List.length_append]; omega
  refine ⟨?_, ?_, ?_, ?_⟩
  · intro e; rw [e] at hl; simp at hl
  · intro e; rw [e] at hl; simp at hl
  · intro e; rw [e] at hl; simp at hl
  · simp only [String.data_append, List.mem_append]
    exact fun h => h.elim hn he

/-- C11: `saveImage` writes to the path joined from `.moul`, `photos`, the run
id, the category, the decimal size and `GetFileName(base, author) + ".jpg"`,
or ends in `log.Fatal` when the directory or the file cannot be written;
`GetFileName` is the slug of the name without its extension, `-by-`, the slug
of the author; and for a plain run id and category and a file name without a
slash the joined path is these elements with slashes between. -/
theorem saveImage_path_layout {C : Type} (env : Env C) (id inPath author photoType : String)
    (size : Int) (img : Image C) :
    saveImage env id inPath author photoType size img =
      (if env.MkdirAll (Join [".moul", "photos", id, photoType, Itoa size]) = true ∧
          env.imagingSave img (Join [".moul", "photos", id, photoType, Itoa size,
            GetFileName env (Base inPath) author ++ ".jpg"]) = true
        then some (.saveImage (Join [".moul", "photos", id, photoType, Itoa size,
            GetFileName env (Base inPath) author ++ ".jpg"]) img)
        else none) ∧
    (∀ fn, GetFileName env fn author =
        env.slugMake (TrimSuffix fn (Ext fn)) ++ "-by-" ++ env.slugMake author ∧
      TrimSuffix fn (Ext fn) ++ Ext fn = fn) ∧
    (Plain id → Plain photoType → '/' ∉ (GetFileName env (Base inPath) author).data →
      Join [".moul", "photos", id, photoType, Itoa size,
          GetFileName env (Base inPath) author ++ ".jpg"] =
        ".moul/photos/" ++ id ++ "/" ++ photoType ++ "/" ++ Itoa size ++ "/" ++
          GetFileName env (Base inPath) author ++ ".jpg") := by
  refine ⟨?_, fun fn => ⟨rfl, TrimSuffix_Ext fn⟩, ?_⟩
  · have hj : Join [getFilePath id photoType size, GetFileName env (Base inPath) author ++ ".jpg"] =
        Join [".moul", "photos", id, photoType, Itoa size,
          GetFileName env (Base inPath) author ++ ".jpg"] := by
      rw [getFilePath, Join_Join ".moul" ["photos", id, photoType, Itoa size] _ (by decide)]
      rfl
    simp only [saveImage]
    rw [hj]
    simp only [getFilePath]
    by_cases h1 : env.MkdirAll (Join [".moul", "photos", id, photoType, Itoa size]) = true
    · by_cases h2 : env.imagingSave img (Join [".moul", "photos", id, photoType, Itoa size,
          GetFileName env (Base inPath) author ++ ".jpg"]) = true
      · simp [h1, h2]
      · simp [h1, h2]
    · simp [h1]
  · intro hid hcat hname
    rw [Join_plain]
    · apply String.ext
      simp [intercalate_cons_data, String.data_append]
    · intro x hx
      simp only [List.mem_cons, List.mem_singleton, List.not_mem_nil, or_false] at hx
      rcases hx with rfl | rfl | rfl | rfl | rfl | rfl
      · exact ⟨by decide, by decide, by decide, by decide⟩
      · exact ⟨by decide, by decide, by decide, by decide⟩
      · exact hid
      · exact hcat
      · exact Itoa_plain size
      · exact Plain_with_ext _ ".jpg" hname (by decide) (by decide)

/-- C11 for `My Photo.JPG` by Jane Doe at size 640 in run `run1`, category
`blog`. -/
theorem saveImage_path_layout_witness :
    Plain "run1" ∧ Plain "blog" ∧
    Join [".moul", "photos", "run1", "blog", Itoa 640,
        GetFileName (demoEnv "run1" singleDir (fun _ => "h1")) (Base "in/My Photo.JPG")
          "Jane Doe" ++ ".jpg"] =
      ".moul/photos/" ++ "run1" ++ "/" ++ "blog" ++ "/" ++ Itoa 640 ++ "/" ++
        GetFileName (demoEnv "run1" singleDir (fun _ => "h1")) (Base "in/My Photo.JPG")
          "Jane Doe" ++ ".jpg" ∧
    Join [".moul", "photos", "run1", "blog", Itoa 640,
        GetFileName (demoEnv "run1" singleDir (fun _ => "h1")) (Base "in/My Photo.JPG")
          "Jane Doe" ++ ".jpg"] = ".moul/photos/run1/blog/640/my-photo-by-jane-doe.jpg" :=
  ⟨⟨by decide, by decide, by decide, by decide⟩, ⟨by decide, by decide, by decide, by decide⟩,
    (saveImage_path_layout (demoEnv "run1" singleDir (fun _ => "h1")) "run1" "in/My Photo.JPG"
      "Jane Doe" "blog" 640 (flatImage 4 4 1)).2.2
      ⟨by decide, by decide, by decide, by decide⟩ ⟨by decide, by decide, by decide, by decide⟩
      (by decide),
    by decide⟩

/-- C13: when `watermark.png` cannot be opened, whatever the flag, the sizes
and the stored hashes, the run does not complete: it ends in `log.Fatal` as
soon as the scan has returned (or in the panic of the scan before that), no
file is written, no placeholder generated and no document persisted. -/
theorem watermark_file_required {C : Type} (env : Env C) (store : Store)
    (inPath author outPrefix : String) (sizes : List Int) (watermark : Bool)
    (hwm : env.imagingOpen "watermark.png" = none) :
    (Resize env store inPath author outPrefix sizes watermark).status ≠ .completed ∧
    (∀ photos, GetPhotos (env.lstat inPath) inPath = some photos →
      (Resize env store inPath author outPrefix sizes watermark).status = .fatal) ∧
    (Resize env store inPath author outPrefix sizes watermark).trace = [] ∧
    (Resize env store inPath author outPrefix sizes watermark).store = store := by
  cases hscan : GetPhotos (env.lstat inPath) inPath with
  | none => simp [Resize, hscan]
  | some photos => simp [Resize, hscan, hwm]

/-- C13 with the flag off and the only photo already recorded. -/
theorem watermark_file_required_witness :
    (brokenEnv "run2" singleDir (fun _ => "h1") ["watermark.png"]).imagingOpen "watermark.png" =
      none ∧
    (seenStore.ReadInConfig "blog").GetString (slugAscii (Base "in/photo.jpg") ++ ".sha") =
      "h1" ∧
    unmarkedRun.status = .fatal ∧ unmarkedRun.trace = [] ∧ unmarkedRun.store = seenStore :=
  ⟨rfl, by decide,
    (watermark_file_required (brokenEnv "run2" singleDir (fun _ => "h1") ["watermark.png"])
      seenStore "in" "jane" "blog" [2560, 1280, 640] false rfl).2.1 ["in/photo.jpg"]
      (by decide),
    (watermark_file_required (brokenEnv "run2" singleDir (fun _ => "h1") ["watermark.png"])
      seenStore "in" "jane" "blog" [2560, 1280, 640] false rfl).2.2⟩

/-- What `saveImage` returns when it returns: the file at its path. -/
theorem saveImage_some {C : Type} (env : Env C) (id inPath author photoType : String)
    (size : Int) (img : Image C) (w : Event C)
    (h : saveImage env id inPath author photoType size img = some w) :
    w = .saveImage
      (Join [getFilePath id photoType size, GetFileName env (Base inPath) author ++ ".jpg"])
      img := by
  unfold saveImage at h
  simp only at h
  by_cases h1 : env.MkdirAll (getFilePath id photoType size) = true
  · by_cases h2 : env.imagingSave img
        (Join [getFilePath id photoType size, GetFileName env (Base inPath) author ++ ".jpg"]) =
          true
    · simp only [h1, h2, if_true, Option.some.injEq] at h
      exact h.symm
    · simp [h1, h2] at h
  · simp [h1] at h

/-- Whenever the loop over `sizes` ends normally, the effects before it are
still there and every size has a file written at the path of `saveImage`. -/
theorem sizesLoop_trace {C : Type} (env : Env C) (wm : Image C) (watermark : Bool)
    (unique photo author cat name : String) (sizes : List Int) (idx : Nat)
    (st st1 : RunState C)
    (h : sizesLoop env wm watermark unique photo author cat name idx sizes st = .ok st1) :
    (∀ ev ∈ st.trace, ev ∈ st1.trace) ∧
    ∀ size ∈ sizes, ∃ img, Event.saveImage
      (Join [getFilePath unique cat size, GetFileName env (Base photo) author ++ ".jpg"]) img ∈
        st1.trace := by
  induction sizes generalizing idx st with
  | nil =>
    simp only [sizesLoop, Except.ok.injEq] at h
    subst h
    exact ⟨fun _ h => h, by simp⟩
  | cons size rest ih =>
    simp only [sizesLoop] at h
    split at h
    · exact absurd h (by simp)
    · rename_i src hsrc
      split at h
      · exact absurd h (by simp)
      · rename_i written hw
        obtain ⟨hmono, hrest⟩ := ih _ _ h
        have hwritten : ∃ img, written = Event.saveImage
            (Join [getFilePath unique cat size, GetFileName env (Base photo) author ++ ".jpg"])
            img := ⟨_, saveImage_some _ _ _ _ _ _ _ _ hw⟩
        refine ⟨?_, ?_⟩
        · intro ev hev
          apply hmono
          simp only [List.mem_append, List.mem_singleton]
          left
          split
          · simp only [List.mem_append]; exact Or.inl hev
          · exact hev
        · intro s hs
          rcases List.mem_cons.1 hs with rfl | hs
          · obtain ⟨img, himg⟩ := hwritten
            exact ⟨img, hmono _ (by simp [himg])⟩
          · exact hrest s hs

/-- Whenever the body of the loop over `photos` ends normally: the path list
grows by the entries of the photo when it is processed and not at all when it
is skipped, the effects before it are still there, and a processed photo has
a file written for every size. -/
theorem photoStep_index {C : Type} (env : Env C) (wm : Image C) (watermark : Bool)
    (unique author cat : String) (sizes : List Int) (st st1 : RunState C) (photo : String)
    (h : photoStep env wm watermark unique author cat sizes st photo = .ok st1) :
    st1.ap = st.ap ++
      (if st.config.GetString (shaKey env photo) = env.GetSHA1 photo then []
        else photoEntries env unique author cat sizes photo) ∧
    (∀ ev ∈ st.trace, ev ∈ st1.trace) ∧
    (st.config.GetString (shaKey env photo) ≠ env.GetSHA1 photo →
      ∀ size ∈ sizes, ∃ img, Event.saveImage
        (Join [getFilePath unique cat size, GetFileName env (Base photo) author ++ ".jpg"]) img ∈
          st1.trace) := by
  unfold photoStep at h
  simp only at h
  unfold shaKey
  split at h
  · rename_i hs
    simp only [Except.ok.injEq] at h
    subst h
    simp [hs]
  · rename_i hs
    split at h
    · exact absurd h (by simp)
    · rename_i st2 hl
      simp only [Except.ok.injEq] at h
      subst h
      obtain ⟨hmono, hsaved⟩ := sizesLoop_trace _ _ _ _ _ _ _ _ _ _ _ _ hl
      refine ⟨?_, ?_, ?_⟩
      · simp [hs, (sizesLoop_config _ _ _ _ _ _ _ _ _ _ _ _ hl).2, photoEntries, sqipEntry]
      · intro ev hev
        simp only [List.mem_append]
        exact Or.inl (hmono ev hev)
      · intro _ size hsize
        obtain ⟨img, himg⟩ := hsaved size hsize
        exact ⟨img, by simp only [List.mem_append]; exact Or.inl himg⟩

/-- Whenever the loop over `photos` ends normally, the path list has grown by
the entries of the processed photos in scan order, and every processed photo
has a file written for every size. -/
theorem photosLoop_index {C : Type} (env : Env C) (wm : Image C) (watermark : Bool)
    (unique author cat : String) (sizes : List Int) (photos : List String)
    (st st1 : RunState C)
    (h : photosLoop env wm watermark unique author cat sizes photos st = .ok st1) :
    st1.ap = st.ap ++
      (processed env unique photos st.config).flatMap (photoEntries env unique author cat sizes) ∧
    (∀ ev ∈ st.trace, ev ∈ st1.trace) ∧
    ∀ p ∈ processed env unique photos st.config, ∀ size ∈ sizes, ∃ img, Event.saveImage
      (Join [getFilePath unique cat size, GetFileName env (Base p) author ++ ".jpg"]) img ∈
        st1.trace := by
  induction photos generalizing st with
  | nil =>
    simp only [photosLoop, Except.ok.injEq] at h
    subst h
    simp [processed]
  | cons q rest ih =>
    simp only [photosLoop] at h
    split at h
    · exact absurd h (by simp)
    · rename_i st2 hq
      obtain ⟨hap, hmono, hsaved⟩ := photoStep_index _ _ _ _ _ _ _ _ _ _ hq
      have hcfg := photoStep_config _ _ _ _ _ _ _ _ _ _ hq
      obtain ⟨iap, imono, isaved⟩ := ih _ h
      by_cases hs : st.config.GetString (shaKey env q) = env.GetSHA1 q
      · have hc : st2.config = st.config := by rw [hcfg, configStep_skip env unique _ q hs]
        simp only [processed, hs, if_true]
        rw [hc] at iap isaved
        refine ⟨by rw [iap, hap]; simp [hs], fun ev hev => imono ev (hmono ev hev), isaved⟩
      · simp only [processed, hs, if_false]
        rw [hcfg] at iap isaved
        refine ⟨by rw [iap, hap]; simp [hs], fun ev hev => imono ev (hmono ev hev), ?_⟩
        intro p hp size hsize
        rcases List.mem_cons.1 hp with rfl | hp
        · obtain ⟨img, himg⟩ := hsaved hs size hsize
          exact ⟨img, imono _ himg⟩
        · exact isaved p hp size hsize

/-- C12 (amended): after a run that completes, the list stored under the
category is the list loaded before the run followed, for each processed photo
in scan order, by one path per size in the order of the sizes and then the
placeholder path; each derivative path of the list is the path at which
`saveImage` wrote a file for that photo and size in this run; and the
placeholder path ends in `sqip/<name>.svg` when the file name has no
slash. -/
theorem index_matches_disk_on_completed_run {C : Type} (env : Env C) (store : Store)
    (inPath author outPrefix : String) (sizes : List Int) (watermark : Bool)
    (photos : List String)
    (hscan : GetPhotos (env.lstat inPath) inPath = some photos)
    (hdone : (Resize env store inPath author outPrefix sizes watermark).status = .completed)
    (hname : ∀ p ∈ photos, '/' ∉ (GetFileName env (Base p) author).data) :
    ((Resize env store inPath author outPrefix sizes watermark).store.ReadInConfig
        "photos").GetStringSlice (env.slugMake outPrefix) =
      (store.ReadInConfig "photos").GetStringSlice (env.slugMake outPrefix) ++
        (processed env env.UniqueID photos
          (store.ReadInConfig (env.slugMake outPrefix))).flatMap
            (photoEntries env env.UniqueID author (env.slugMake outPrefix) sizes) ∧
    (∀ p, photoEntries env env.UniqueID author (env.slugMake outPrefix) sizes p =
      sizes.map (fun size => Join [getFilePath env.UniqueID (env.slugMake outPrefix) size,
          GetFileName env (Base p) author ++ ".jpg"]) ++
        [Join [".", ".moul", "photos", env.UniqueID, env.slugMake outPrefix, "sqip",
          GetFileName env (Base p) author ++ ".svg"]]) ∧
    (∀ p ∈ processed env env.UniqueID photos (store.ReadInConfig (env.slugMake outPrefix)),
      ∀ size ∈ sizes, ∃ img, Event.saveImage
        (Join [getFilePath env.UniqueID (env.slugMake outPrefix) size,
          GetFileName env (Base p) author ++ ".jpg"]) img ∈
        (Resize env store inPath author outPrefix sizes watermark).trace) ∧
    (∀ p ∈ photos, ∃ pre,
      Join [".", ".moul", "photos", env.UniqueID, env.slugMake outPrefix, "sqip",
          GetFileName env (Base p) author ++ ".svg"] =
        pre ++ "sqip" ++ "/" ++ (GetFileName env (Base p) author ++ ".svg")) := by
  obtain ⟨photos1, wm1, st1, hscan1, hwm1, hloop1⟩ :=
    Resize_completed_inv env store inPath author outPrefix sizes watermark hdone
  have hp1 : photos1 = photos := by
    rw [hscan] at hscan1; exact (Option.some.inj hscan1).symm
  subst hp1
  rw [Resize_of_loop env store inPath author outPrefix sizes watermark photos1 wm1 st1 hscan1
    hwm1 hloop1]
  obtain ⟨hap, _, hsaved⟩ := photosLoop_index _ _ _ _ _ _ _ _ _ _ hloop1
  simp only at hap hsaved
  refine ⟨?_, ?_, hsaved, ?_⟩
  · simp [Store.ReadInConfig, configName, Store.WriteConfigAs, hap]
  · intro p
    simp only [photoEntries, sizeEntries, sqipEntry, entry_eq_saved_path]
  · intro p hp
    exact Join_ends "." [".moul", "photos", env.UniqueID, env.slugMake outPrefix] "sqip" _
      (by decide) ⟨by decide, by decide, by decide, by decide⟩
      (Plain_with_ext _ ".svg" (hname p hp) (by decide) (by decide))

/-- C12 (amended) on a first run over `pairDir`. -/
theorem index_matches_disk_on_completed_run_witness :
    (Resize (demoEnv "run1" pairDir (pairSha "ha")) emptyStore "in" "jane" "blog" [1280, 640]
      true).status = .completed ∧
    processed (demoEnv "run1" pairDir (pairSha "ha")) "run1" ["in/a.jpg", "in/b.png"]
      (emptyStore.ReadInConfig "blog") = ["in/a.jpg", "in/b.png"] ∧
    ((Resize (demoEnv "run1" pairDir (pairSha "ha")) emptyStore "in" "jane" "blog" [1280, 640]
      true).store.ReadInConfig "photos").GetStringSlice (slugAscii "blog") =
      (emptyStore.ReadInConfig "photos").GetStringSlice (slugAscii "blog") ++
        (processed (demoEnv "run1" pairDir (pairSha "ha")) "run1" ["in/a.jpg", "in/b.png"]
          (emptyStore.ReadInConfig (slugAscii "blog"))).flatMap
            (photoEntries (demoEnv "run1" pairDir (pairSha "ha")) "run1" "jane"
              (slugAscii "blog") [1280, 640]) :=
  ⟨by decide, by decide,
    (index_matches_disk_on_completed_run (demoEnv "run1" pairDir (pairSha "ha")) emptyStore "in"
      "jane" "blog" [1280, 640] true ["in/a.jpg", "in/b.png"] (by decide) (by decide)
      (by decide)).1⟩

/-- C12 fails as stated: in `brokenRun` the photo `a.jpg` is processed, its
derivative written and its placeholder generated, then `b.png` cannot be
decoded and the run ends in `log.Fatal`; the list stored for the category is
the empty list loaded before the run, without the two paths of `a.jpg`. -/
theorem index_matches_disk_counterexample :
    GetPhotos pairDir "in" = some ["in/a.jpg", "in/b.png"] ∧
    brokenRun.status = .fatal ∧
    brokenRun.trace.map Event.label =
      ["save .moul/photos/run1/blog/640/a-by-jane.jpg", "sqip in/a.jpg"] ∧
    (emptyStore.ReadInConfig "photos").GetStringSlice "blog" = [] ∧
    (brokenRun.store.ReadInConfig "photos").GetStringSlice "blog" = [] := by
  decide

end Moul
